import Mathlib

/-!
Verification development for the markup normalization engine in
`src/services/cleanerService.ts`.

The source file contains two complete variants of the engine, concatenated:
lines 1-247 (namespace `V1` below: DOM-based cleanup, lists preserved) and
lines 248-542 (namespace `V2` below: regex-based cleanup, lists flattened to
bullet/number markers).  Both export `cleanHtml`.

Embedding boundary: `DOMPurify.sanitize` and `DOMParser.parseFromString` are
external browser/library APIs, not code of this repository.  The embedded
`cleanHtml` therefore takes the parsed child list of `document.body` (an
`HForest`) together with the raw input string (used only for its length in the
stats) and a boolean modelling `doc.querySelector('parsererror') != null`.
Everything from the DOM walker (`processNode`) to the returned result record is
translated from the source.  JavaScript string/regex operations are embedded as
character-list scanners with the exact semantics of the regexes appearing in
the source (global replace = one left-to-right non-overlapping pass).
-/

/-! ## JavaScript string primitives -/

/-- The character class of JavaScript `\s` (and of `String.prototype.trim`):
space, tab, line terminators, vertical tab, form feed, NBSP, and the Unicode
space separators. -/
def isJsSpace (c : Char) : Bool :=
  c == ' ' || c == '\t' || c == '\n' || c == '\r' ||
  c.toNat == 0x0B || c.toNat == 0x0C || c.toNat == 0xA0 || c.toNat == 0x1680 ||
  (0x2000 ≤ c.toNat && c.toNat ≤ 0x200A) || c.toNat == 0x2028 ||
  c.toNat == 0x2029 || c.toNat == 0x202F || c.toNat == 0x205F ||
  c.toNat == 0x3000 || c.toNat == 0xFEFF

/-- Drop leading and trailing JavaScript whitespace from a character list. -/
def trimChars (l : List Char) : List Char :=
  ((l.dropWhile isJsSpace).reverse.dropWhile isJsSpace).reverse

/-- JavaScript `String.prototype.trim`. -/
def jsTrim (s : String) : String := ⟨trimChars s.data⟩

def isNlCr (c : Char) : Bool := c == '\n' || c == '\r'

/-- One pass of `replace(/[\n\r]+/g, ' ')`: each maximal run of line
terminators becomes a single space.  The boolean records whether the previous
character belonged to a run. -/
def nlRunsToSpace (inRun : Bool) : List Char → List Char
  | [] => []
  | c :: cs =>
    if isNlCr c then
      if inRun then nlRunsToSpace true cs else ' ' :: nlRunsToSpace true cs
    else c :: nlRunsToSpace false cs

/-- `text.replace(/[\n\r]+/g, ' ')`. -/
def replaceNlRuns (s : String) : String := ⟨nlRunsToSpace false s.data⟩

def wsRunsToSpace (inRun : Bool) : List Char → List Char
  | [] => []
  | c :: cs =>
    if isJsSpace c then
      if inRun then wsRunsToSpace true cs else ' ' :: wsRunsToSpace true cs
    else c :: wsRunsToSpace false cs

/-- `text.replace(/\s+/g, ' ')`. -/
def collapseWsRuns (s : String) : String := ⟨wsRunsToSpace false s.data⟩

/-- Match a literal pattern case-insensitively at the head of the input,
returning the rest on success (the `/i` flag of the source regexes). -/
def matchLitCI : List Char → List Char → Option (List Char)
  | [], rest => some rest
  | _ :: _, [] => none
  | p :: ps, c :: cs => if p.toLower == c.toLower then matchLitCI ps cs else none

/-- Match a literal pattern case-sensitively at the head of the input. -/
def matchLitCS : List Char → List Char → Option (List Char)
  | [], rest => some rest
  | _ :: _, [] => none
  | p :: ps, c :: cs => if p == c then matchLitCS ps cs else none

/-- Greedy `\s*`. -/
def dropWS (l : List Char) : List Char := l.dropWhile isJsSpace

/-- `RegExp.prototype.test`: does the matcher succeed at some position?
Positions run over every suffix of the input, end position included. -/
def searchB (m : List Char → Bool) : List Char → Bool
  | [] => m []
  | c :: cs => m (c :: cs) || searchB m cs

/-! ## Style classifier (identical in both source variants) -/

/-- Matcher for `/font-weight\s*:\s*(bold|700|800|900)/i` anchored at the
current position. -/
def boldAt (l : List Char) : Bool :=
  match matchLitCI "font-weight".data l with
  | none => false
  | some r1 =>
    match dropWS r1 with
    | ':' :: r2 =>
      let r3 := dropWS r2
      (matchLitCI "bold".data r3).isSome || (matchLitCI "700".data r3).isSome ||
      (matchLitCI "800".data r3).isSome || (matchLitCI "900".data r3).isSome
    | _ => false

/-- Matcher for `/font-style\s*:\s*italic/i` anchored at the current position. -/
def italicAt (l : List Char) : Bool :=
  match matchLitCI "font-style".data l with
  | none => false
  | some r1 =>
    match dropWS r1 with
    | ':' :: r2 => (matchLitCI "italic".data (dropWS r2)).isSome
    | _ => false

/-- Matcher for `/text-decoration\s*:\s*underline/i` anchored at the current
position. -/
def underlineAt (l : List Char) : Bool :=
  match matchLitCI "text-decoration".data l with
  | none => false
  | some r1 =>
    match dropWS r1 with
    | ':' :: r2 => (matchLitCI "underline".data (dropWS r2)).isSome
    | _ => false

/-- `const isBoldStyle = (style) => /font-weight\s*:\s*(bold|700|800|900)/i.test(style)` -/
def isBoldStyle (s : String) : Bool := searchB boldAt s.data

/-- `const isItalicStyle = (style) => /font-style\s*:\s*italic/i.test(style)` -/
def isItalicStyle (s : String) : Bool := searchB italicAt s.data

/-- `const isUnderlineStyle = (style) => /text-decoration\s*:\s*underline/i.test(style)` -/
def isUnderlineStyle (s : String) : Bool := searchB underlineAt s.data

/-! ## Spec-side style classifier (for claim C6 only)

The spec (§4.1) describes the classifier in terms of CSS declarations: split
the attribute into `property: value` declarations and compare the property and
value.  These definitions follow the spec's words, for comparison with the
regex-based source functions above. -/

def splitOnSemiAux (acc : List Char) : List Char → List (List Char)
  | [] => [acc.reverse]
  | c :: cs =>
    if c == ';' then acc.reverse :: splitOnSemiAux [] cs
    else splitOnSemiAux (c :: acc) cs

/-- Split a style attribute into its `;`-separated declarations. -/
def splitOnSemi (l : List Char) : List (List Char) := splitOnSemiAux [] l

def splitFirstColonAux (acc : List Char) : List Char → Option (List Char × List Char)
  | [] => none
  | c :: cs =>
    if c == ':' then some (acc.reverse, cs) else splitFirstColonAux (c :: acc) cs

/-- Split a declaration at its first `:` into property and value. -/
def splitFirstColon (l : List Char) : Option (List Char × List Char) :=
  splitFirstColonAux [] l

/-- Lower-cased, whitespace-trimmed form of a token. -/
def lcTrim (l : List Char) : List Char := (trimChars l).map Char.toLower

/-- Case-sensitive substring test. -/
def containsSeq (pat l : List Char) : Bool :=
  searchB (fun s => (matchLitCS pat s).isSome) l

/-- Spec §4.1: "Bold: declaration matches a font-weight property with value
bold, 700, 800, or 900 (case-insensitive, whitespace-tolerant around the
colon)." -/
def specIsBold (s : String) : Bool :=
  (splitOnSemi s.data).any fun decl =>
    match splitFirstColon decl with
    | none => false
    | some (p, v) =>
      lcTrim p == "font-weight".data &&
      (lcTrim v == "bold".data || lcTrim v == "700".data ||
       lcTrim v == "800".data || lcTrim v == "900".data)

/-- Spec §4.1: "Italic: declaration matches a font-style property with value
italic." -/
def specIsItalic (s : String) : Bool :=
  (splitOnSemi s.data).any fun decl =>
    match splitFirstColon decl with
    | none => false
    | some (p, v) => lcTrim p == "font-style".data && lcTrim v == "italic".data

/-- Spec §4.1: "Underline: declaration matches a text-decoration property with
value containing underline." -/
def specIsUnderline (s : String) : Bool :=
  (splitOnSemi s.data).any fun decl =>
    match splitFirstColon decl with
    | none => false
    | some (p, v) =>
      lcTrim p == "text-decoration".data && containsSeq "underline".data (lcTrim v)

/-! ## JavaScript parseInt (radix 10) -/

def digitsToNatAux (acc : Nat) : List Char → Nat
  | [] => acc
  | c :: cs => digitsToNatAux (acc * 10 + (c.toNat - 48)) cs

/-- `parseInt(s, 10)`: skip leading whitespace, optional sign, then the maximal
prefix of decimal digits; `none` models `NaN` (no digits). -/
def parseIntJS (s : String) : Option Int :=
  let l := dropWS s.data
  let signAndRest : Int × List Char :=
    match l with
    | '-' :: r => (-1, r)
    | '+' :: r => (1, r)
    | r => (1, r)
  let ds := signAndRest.2.takeWhile Char.isDigit
  if ds.isEmpty then none
  else some (signAndRest.1 * (digitsToNatAux 0 ds : Nat))

/-! ## Generic one-pass global replace

JavaScript `String.prototype.replace` with the `g` flag performs a single
left-to-right non-overlapping pass; replaced text is not rescanned.  `step`
tries to match the concrete regex at the current position and returns the
replacement text and the remaining input.  Fuel (initialized to the input
length) only serves termination; every step consumes at least one character,
so the fuel is never exhausted on a match-driven pass. -/

def replFuel (step : List Char → Option (List Char × List Char)) :
    Nat → List Char → List Char
  | _, [] => []
  | 0, l => l
  | fuel + 1, c :: cs =>
    match step (c :: cs) with
    | some (rep, rest) => rep ++ replFuel step fuel rest
    | none => c :: replFuel step fuel cs

def runRepl (step : List Char → Option (List Char × List Char)) (s : String) : String :=
  ⟨replFuel step s.data.length s.data⟩

/-- Step for `/<br\s*\/?>/gi` → `<br>`. -/
def brNormStep (l : List Char) : Option (List Char × List Char) :=
  match matchLitCI "<br".data l with
  | none => none
  | some r1 =>
    let r2 := dropWS r1
    let r3 := match r2 with
      | '/' :: t => t
      | t => t
    match r3 with
    | '>' :: rest => some ("<br>".data, rest)
    | _ => none

/-- Step for `/(•|\d+\.)\s*<br>/g` → `'$1 '` (case-sensitive; no `i` flag). -/
def bulletStep (l : List Char) : Option (List Char × List Char) :=
  let grab : Option (List Char × List Char) :=
    match l with
    | '•' :: r => some (['•'], r)
    | _ =>
      let ds := l.takeWhile Char.isDigit
      if ds.isEmpty then none
      else
        match l.drop ds.length with
        | '.' :: r => some (ds ++ ['.'], r)
        | _ => none
  match grab with
  | none => none
  | some (cap, r1) =>
    match matchLitCS "<br>".data (dropWS r1) with
    | some rest => some (cap ++ [' '], rest)
    | none => none

/-- Step for `/<p>\s*<p>/gi` → `<p>`. -/
def ppOpenStep (l : List Char) : Option (List Char × List Char) :=
  (matchLitCI "<p>".data l).bind fun r1 =>
    (matchLitCI "<p>".data (dropWS r1)).map fun rest => ("<p>".data, rest)

/-- Step for `/<\/p>\s*<\/p>/gi` → `</p>`. -/
def ppCloseStep (l : List Char) : Option (List Char × List Char) :=
  (matchLitCI "</p>".data l).bind fun r1 =>
    (matchLitCI "</p>".data (dropWS r1)).map fun rest => ("</p>".data, rest)

/-- Step for `/<p>\s*<br>/gi` → `<p>`. -/
def pBrStep (l : List Char) : Option (List Char × List Char) :=
  (matchLitCI "<p>".data l).bind fun r1 =>
    (matchLitCI "<br>".data (dropWS r1)).map fun rest => ("<p>".data, rest)

/-- Step for `/<p>/gi` → `''`. -/
def delPOpenStep (l : List Char) : Option (List Char × List Char) :=
  (matchLitCI "<p>".data l).map fun rest => ([], rest)

/-- Step for `/<\/p>/gi` → `<br><br>`. -/
def pCloseToBrStep (l : List Char) : Option (List Char × List Char) :=
  (matchLitCI "</p>".data l).map fun rest => ("<br><br>".data, rest)

/-- Step for `/<t>\s*<\/t>/g` (case-sensitive), replacement `''`. -/
def emptyPairStep (tag : String) (l : List Char) : Option (List Char × List Char) :=
  (matchLitCS ("<" ++ tag ++ ">").data l).bind fun r1 =>
    (matchLitCS ("</" ++ tag ++ ">").data (dropWS r1)).map fun rest =>
      (([] : List Char), rest)

/-- `finalHtml.replace(/\n/g, '<br>')`. -/
def nlToBr (s : String) : String :=
  ⟨(s.data.map fun c => if c == '\n' then "<br>".data else [c]).flatten⟩

/-- V1's `while (finalHtml.startsWith('<br>'))` strip loop; also the single
replace of the anchored `/^(<br>)+/` in V2 (regexes greedily consume the whole
leading run of `<br>`, which is the same as repeated dropping). -/
def stripLeadBrsChars : List Char → List Char
  | '<' :: 'b' :: 'r' :: '>' :: rest => stripLeadBrsChars rest
  | l => l

def stripLeadBrs (s : String) : String := ⟨stripLeadBrsChars s.data⟩

def stripTrailBrsCharsRev : List Char → List Char
  | '>' :: 'r' :: 'b' :: '<' :: rest => stripTrailBrsCharsRev rest
  | l => l

/-- V1's `while (finalHtml.endsWith('<br>'))` strip loop; also the single
replace of `/(<br>)+$/` in V2. -/
def stripTrailBrs (s : String) : String :=
  ⟨(stripTrailBrsCharsRev s.data.reverse).reverse⟩

/-! ## Data model -/

/-! A parsed DOM node: a text node or an element with its (lower-cased) tag
name, attribute list, and ordered children.  `HForest` is an ordered child
list (`NodeList`). -/
mutual
inductive HNode where
  | text : String → HNode
  | elem : String → List (String × String) → HForest → HNode
inductive HForest where
  | nil : HForest
  | cons : HNode → HForest → HForest
end

def HForest.append : HForest → HForest → HForest
  | .nil, g => g
  | .cons n f, g => .cons n (f.append g)

def HForest.isNil : HForest → Bool
  | .nil => true
  | .cons _ _ => false

/-! `Node.textContent`: concatenation of all text data in the subtree. -/
mutual
def HNode.textContent : HNode → String
  | .text s => s
  | .elem _ _ kids => kids.textContent
def HForest.textContent : HForest → String
  | .nil => ""
  | .cons n f => n.textContent ++ f.textContent
end

/-! `el.querySelectorAll('br').length > 0` relative to a child forest: is a
`br` element present anywhere in it? -/
mutual
def HNode.selfOrDescBr : HNode → Bool
  | .text _ => false
  | .elem t _ kids => t == "br" || kids.anyBr
def HForest.anyBr : HForest → Bool
  | .nil => false
  | .cons n f => n.selfOrDescBr || f.anyBr
end

/-- The result of `processNode`: `null`, a single node, or a
`DocumentFragment` (which splices into its parent on `appendChild`). -/
inductive PRes where
  | node : HNode → PRes
  | frag : HForest → PRes

def PRes.toForest : PRes → HForest
  | .node n => .cons n .nil
  | .frag f => f

/-- `document.createElement(tag)` around the accumulated content (children of
a fragment are spliced, a node is appended). -/
def wrapP (r : PRes) (t : String) : PRes := .node (.elem t [] r.toForest)

/-- `interface ConversionConfig` (fields as used by the source). -/
structure ConversionConfig where
  useParagraphs : Bool
  aggressiveWhitespace : Bool

/-- `ProcessingStats`. -/
structure ProcessingStats where
  originalLength : Nat
  finalLength : Nat
  tagsRemoved : Nat
  attributesRemoved : Nat
deriving DecidableEq

/-- The return record of `cleanHtml`. -/
structure CleanResult where
  html : String
  stats : ProcessingStats
  error : Option String

/-! ## Shared tag tables (textually identical in both variants) -/

def IGNORE_TAGS : List String :=
  ["script", "style", "svg", "xml", "head", "meta", "link", "object", "iframe",
   "template", "noscript", "button", "input", "select", "textarea"]

def BLOCK_TAGS : List String :=
  ["div", "p", "h1", "h2", "h3", "h4", "h5", "h6", "article", "section", "nav",
   "aside", "header", "footer", "blockquote", "pre", "figure", "li", "tr",
   "ul", "ol", "table"]

/-- `/^h[1-6]$/.test(tagName)`. -/
def isHeaderTag (t : String) : Bool :=
  t == "h1" || t == "h2" || t == "h3" || t == "h4" || t == "h5" || t == "h6"

/-- One conditional wrapping step (`if (cond) result = wrap(result, tag)`). -/
def wrapIf (c : Bool) (t : String) (r : PRes) : PRes :=
  if c then wrapP r t else r

/-- The inline wrapping chain, lines 126-132 resp. 424-453 (identical logic in
both variants): innermost sub/sup, then u, i, b, each applied only if its
condition holds. -/
def applyWraps (targetTag : Option String)
    (hasBold hasItalic hasUnderline isHeader : Bool) (tagName : String)
    (r : PRes) : PRes :=
  wrapIf (targetTag == some "b" || hasBold || isHeader || tagName == "th") "b"
    (wrapIf (targetTag == some "i" || hasItalic) "i"
      (wrapIf (targetTag == some "u" || hasUnderline) "u"
        (wrapIf (targetTag == some "sup") "sup"
          (wrapIf (targetTag == some "sub") "sub" r))))

/-- Per-node output of a walker call, with the deltas the call adds to the
`tagsRemoved` and `attributesRemoved` counters (the source mutates closure
variables; summing the per-subtree deltas is equivalent). -/
structure RwOut where
  res : Option PRes
  tagsRemoved : Nat
  attributesRemoved : Nat

/-! ## Variant 1 (source lines 1-247) -/

namespace V1

def BASE_TAG_MAP : List (String × String) :=
  [("strong", "b"), ("b", "b"),
   ("em", "i"), ("i", "i"), ("cite", "i"), ("var", "i"),
   ("u", "u"), ("ins", "u"),
   ("sub", "sub"), ("sup", "sup"),
   ("br", "br"), ("hr", "br"),
   ("p", "p"), ("div", "p"), ("blockquote", "p"), ("pre", "p"),
   ("address", "p"), ("center", "p"),
   ("h1", "p"), ("h2", "p"), ("h3", "p"), ("h4", "p"), ("h5", "p"), ("h6", "p"),
   ("article", "p"), ("section", "p"), ("main", "p"), ("nav", "p"),
   ("aside", "p"), ("header", "p"), ("footer", "p"),
   ("ul", "ul"), ("ol", "ol"), ("li", "li"),
   ("dl", "p"), ("dd", "br"), ("dt", "b"),
   ("table", "p"), ("tr", "br"), ("td", "span"), ("th", "b")]

/-- `interface ConversionContext { insideListListItem?: boolean }`
(`undefined` is falsy, hence the `false` default). -/
structure ConversionContext where
  insideListListItem : Bool := false

/-- The context passed to children, line 109-111. -/
def childCtx (ctx : ConversionContext) (tagName : String) : ConversionContext :=
  ⟨tagName == "li" || ctx.insideListListItem⟩

/-- Block wrapping, lines 134-163: `p` (suppressed inside a list item), `br`
(children discarded), `ul`/`ol`/`li` wrappers, and the flatten fallback. -/
def applyBlock (targetTag : Option String) (inside : Bool) (r : PRes) : Option PRes :=
  if targetTag == some "p" then
    if inside then some r else some (wrapP r "p")
  else if targetTag == some "br" then some (.node (.elem "br" [] .nil))
  else if targetTag == some "ul" then some (wrapP r "ul")
  else if targetTag == some "ol" then some (wrapP r "ol")
  else if targetTag == some "li" then some (wrapP r "li")
  else some r

/-- Accumulated result of processing a child list. -/
structure ChOut where
  frag : HForest
  tagsRemoved : Nat
  attributesRemoved : Nat

mutual

/-- The DOM walker `processNode`, lines 68-166. -/
def processNode (cfg : ConversionConfig) (ctx : ConversionContext) : HNode → RwOut
  | .text s =>
    let t0 := replaceNlRuns s
    let t := if cfg.aggressiveWhitespace then collapseWsRuns t0 else t0
    if t == "" then ⟨none, 0, 0⟩ else ⟨some (.node (.text t)), 0, 0⟩
  | .elem tagName attrs kids =>
    if IGNORE_TAGS.contains tagName then ⟨none, 1, 0⟩
    else
      let styleAttr := (attrs.lookup "style").getD ""
      let attrInc := if styleAttr == "" then 0 else 1
      let hasBold := isBoldStyle styleAttr
      let hasItalic := isItalicStyle styleAttr
      let hasUnderline := isUnderlineStyle styleAttr
      let isHeader := isHeaderTag tagName
      let targetTag := BASE_TAG_MAP.lookup tagName
      let cr := processChildren cfg (childCtx ctx tagName) kids
      if cr.frag.isNil && !(targetTag == some "br") then
        ⟨none, cr.tagsRemoved, attrInc + cr.attributesRemoved⟩
      else
        let r := applyWraps targetTag hasBold hasItalic hasUnderline isHeader
          tagName (.frag cr.frag)
        ⟨applyBlock targetTag ctx.insideListListItem r,
         cr.tagsRemoved, attrInc + cr.attributesRemoved⟩

/-- The `Array.from(el.childNodes).forEach` loop, lines 113-116. -/
def processChildren (cfg : ConversionConfig) (ctx : ConversionContext) :
    HForest → ChOut
  | .nil => ⟨.nil, 0, 0⟩
  | .cons k rest =>
    let r := processNode cfg ctx k
    let t := processChildren cfg ctx rest
    ⟨(match r.res with
      | none => t.frag
      | some p => p.toForest.append t.frag),
     r.tagsRemoved + t.tagsRemoved,
     r.attributesRemoved + t.attributesRemoved⟩

end

/-- The candidate selector of `cleanEmptyTags`, line 189. -/
def emptyCandidates : List String := ["b", "i", "u", "sub", "sup", "p", "li"]

/-! `cleanEmptyTags` (lines 187-198) iterates over a pre-order snapshot of the
candidates in reverse, so every element is examined after all its descendants
and independently of its siblings; that is exactly a post-order bottom-up
removal pass, embedded here recursively. -/

mutual

def cleanNode : HNode → Option HNode
  | .text s => some (.text s)
  | .elem t a kids =>
    let k := cleanForest kids
    if emptyCandidates.contains t && trimChars (HForest.textContent k).data == []
        && !(HForest.anyBr k) then none
    else some (.elem t a k)

def cleanForest : HForest → HForest
  | .nil => .nil
  | .cons n f =>
    match cleanNode n with
    | none => cleanForest f
    | some m => .cons m (cleanForest f)

end

/-! The paragraph-to-break replacement (lines 201-214) moves every `p`'s
children in place and appends two `<br>`s; the snapshot `forEach` order does
not matter because each replacement is local, so it is embedded recursively. -/

mutual

def unwrapPNode : HNode → HForest
  | .text s => .cons (.text s) .nil
  | .elem t a kids =>
    let k := unwrapPForest kids
    if t == "p" then
      k.append (.cons (.elem "br" [] .nil) (.cons (.elem "br" [] .nil) .nil))
    else .cons (.elem t a k) .nil

def unwrapPForest : HForest → HForest
  | .nil => .nil
  | .cons n f => (unwrapPNode n).append (unwrapPForest f)

end

/-- The rewrite stage: lines 175-179 (top-level nodes are processed with the
default context `{}`). -/
def rewritten (cfg : ConversionConfig) (body : HForest) : ChOut :=
  processChildren cfg {} body

/-- The DOM tree held by `tempDiv` right before serialization: empty-tag
cleanup, then paragraph unwrapping when `useParagraphs` is off. -/
def finalForest (cfg : ConversionConfig) (body : HForest) : HForest :=
  let t := cleanForest (rewritten cfg body).frag
  if cfg.useParagraphs then t else unwrapPForest t

end V1

/-! ## HTML serialization (`tempDiv.innerHTML`)

The rewriter only ever creates attribute-free elements and text nodes, so the
serializer covers exactly that image: text data is escaped (`&`, `<`, `>`,
NBSP), `br` is void, and every other element serializes as
`<tag>children</tag>`. -/

def escapeChar (c : Char) : List Char :=
  if c == '&' then "&amp;".data
  else if c == '<' then "&lt;".data
  else if c == '>' then "&gt;".data
  else if c.toNat == 0xA0 then "&nbsp;".data
  else [c]

def escapeText (s : String) : String := ⟨(s.data.map escapeChar).flatten⟩

mutual
def HNode.serialize : HNode → String
  | .text s => escapeText s
  | .elem t _ kids =>
    if t == "br" then "<br>"
    else "<" ++ t ++ ">" ++ kids.serialize ++ "</" ++ t ++ ">"
def HForest.serialize : HForest → String
  | .nil => ""
  | .cons n f => n.serialize ++ f.serialize
end

/-- Variant 1 `cleanHtml`, lines 46-247.  `body` is the child list of the
parsed, sanitized document body; `parserError` models the
`doc.querySelector('parsererror')` check; the `try`/`catch` is embedded by the
two branches (the only statement in the `try` block that throws is the
malformed-structure check). -/
def V1.cleanHtml (rawHtml : String) (body : HForest) (parserError : Bool)
    (cfg : ConversionConfig) : CleanResult :=
  if parserError then
    { html := "", stats := ⟨0, 0, 0, 0⟩,
      error := some "Malformed HTML structure detected." }
  else
    let pr := V1.rewritten cfg body
    let s := stripTrailBrs (stripLeadBrs (jsTrim
      (HForest.serialize (V1.finalForest cfg body))))
    { html := s,
      stats := ⟨rawHtml.length, s.length, pr.tagsRemoved, pr.attributesRemoved⟩,
      error := none }

/-! ## Variant 2 (source lines 248-542) -/

namespace V2

def BASE_TAG_MAP : List (String × String) :=
  [("strong", "b"), ("b", "b"),
   ("em", "i"), ("i", "i"), ("cite", "i"), ("var", "i"),
   ("u", "u"), ("ins", "u"),
   ("sub", "sub"), ("sup", "sup"),
   ("br", "br"), ("hr", "br"),
   ("p", "p"), ("div", "p"), ("blockquote", "p"), ("pre", "p"),
   ("address", "p"), ("center", "p"),
   ("h1", "p"), ("h2", "p"), ("h3", "p"), ("h4", "p"), ("h5", "p"), ("h6", "p"),
   ("article", "p"), ("section", "p"), ("main", "p"), ("nav", "p"),
   ("aside", "p"), ("header", "p"), ("footer", "p"),
   ("ul", "p"), ("ol", "p"), ("dl", "p"),
   ("li", "br"), ("dd", "br"), ("dt", "b"),
   ("table", "p"), ("tr", "br"), ("td", "span"), ("th", "b")]

/-- `interface ConversionContext` of the second variant: optional fields model
JavaScript `undefined` via `none`/`false` defaults. -/
structure ConversionContext where
  insideListListItem : Bool := false
  parentListType : Option String := none
  listIndex : Option Int := none

/-- The effective target tag after the context override of lines 358-361:
inside a list item, `p`-mapped elements, headers and `div`s are remapped
to `br`. -/
def effTarget (ctx : ConversionContext) (tagName : String) : Option String :=
  let t0 := BASE_TAG_MAP.lookup tagName
  if ctx.insideListListItem &&
      (t0 == some "p" || isHeaderTag tagName || tagName == "div") then some "br"
  else t0

/-- `nextListIndex` initialization, lines 364-371: the `start` attribute of an
`ol` when it parses as a number, otherwise 1. -/
def olStart (attrs : List (String × String)) : Int :=
  match attrs.lookup "start" with
  | some s => if s == "" then 1 else (parseIntJS s).getD 1
  | none => 1

/-- The visual marker for a list item, lines 375-380: a number when the
enclosing list is an `ol` and an index was recorded, a bullet otherwise. -/
def liMarker (ctx : ConversionContext) : String :=
  match ctx.parentListType, ctx.listIndex with
  | some "ol", some n => toString n ++ ". "
  | _, _ => "• "

/-- The visual marker of lines 373-383 (`''` means no marker; `if (prefix)` is
falsy on the empty string). -/
def visualMarker (ctx : ConversionContext) (tagName : String) : String :=
  if tagName == "li" then liMarker ctx
  else if tagName == "td" then " "
  else ""

/-- The base context passed to children, lines 391-394 (`listIndex` is absent
from the base object, i.e. `none`, and only set per `li` child of an `ol`). -/
def childBase (ctx : ConversionContext) (tagName : String) : ConversionContext :=
  { insideListListItem :=
      tagName == "li" || (ctx.insideListListItem && !(BLOCK_TAGS.contains tagName)),
    parentListType :=
      if tagName == "ul" || tagName == "ol" then some tagName
      else ctx.parentListType,
    listIndex := none }

/-- Block wrapping of lines 455-470: `p` wrapper, `br` prepended to the
accumulated content, everything else flattened. -/
def applyBlock (targetTag : Option String) (r : PRes) : Option PRes :=
  if targetTag == some "p" then some (wrapP r "p")
  else if targetTag == some "br" then
    some (.frag (.cons (.elem "br" [] .nil) r.toForest))
  else some r

/-- Accumulated result of the child loop of lines 396-414, including the
`hasContent` flag. -/
structure ChOut where
  frag : HForest
  hasContent : Bool
  tagsRemoved : Nat
  attributesRemoved : Nat

mutual

/-- The DOM walker `processNode` of the second variant, lines 321-474.
`plain` is the captured `treatAsPlainText` flag. -/
def processNode (cfg : ConversionConfig) (plain : Bool)
    (ctx : ConversionContext) : HNode → RwOut
  | .text s =>
    if s == "" then ⟨none, 0, 0⟩
    else
      let t :=
        if !plain then
          let t0 := replaceNlRuns s
          if cfg.aggressiveWhitespace then collapseWsRuns t0 else t0
        else s
      ⟨some (.node (.text t)), 0, 0⟩
  | .elem tagName attrs kids =>
    if IGNORE_TAGS.contains tagName then ⟨none, 1, 0⟩
    else
      let styleAttr := (attrs.lookup "style").getD ""
      let hasBold := isBoldStyle styleAttr
      let hasItalic := isItalicStyle styleAttr
      let hasUnderline := isUnderlineStyle styleAttr
      let isHeader := isHeaderTag tagName
      let targetTag := effTarget ctx tagName
      let cr := processChildren cfg plain (childBase ctx tagName) tagName
        (olStart attrs) kids
      let mk := visualMarker ctx tagName
      let frag := if mk == "" then cr.frag else .cons (.text mk) cr.frag
      if !cr.hasContent && !(targetTag == some "br") && !(tagName == "td") then
        ⟨none, cr.tagsRemoved, cr.attributesRemoved⟩
      else
        let r := applyWraps targetTag hasBold hasItalic hasUnderline isHeader
          tagName (.frag frag)
        ⟨applyBlock targetTag r, cr.tagsRemoved, cr.attributesRemoved⟩

/-- `tagName === 'ol' && child.nodeName.toLowerCase() === 'li'` (line 400):
`nodeName` of an element is its tag, of a text node `#text`. -/
def isLiElemChild (parentTag : String) (k : HNode) : Bool :=
  parentTag == "ol" &&
    (match k with
     | .elem t _ _ => t == "li"
     | _ => false)

/-- The child loop, lines 396-414: `idx` threads the mutable `nextListIndex`,
assigned (and post-incremented) exactly for `li` element children when the
parent is an `ol`.  (`processNode` passes `olStart attrs` unconditionally;
the source initializes `nextListIndex = 1` and overwrites it only for `ol`
elements, which is equivalent because the index is read only when
`parentTag = "ol"`.) -/
def processChildren (cfg : ConversionConfig) (plain : Bool)
    (base : ConversionContext) (parentTag : String) (idx : Int) :
    HForest → ChOut
  | .nil => ⟨.nil, false, 0, 0⟩
  | .cons k rest =>
    let isLiChild := isLiElemChild parentTag k
    let cctx := if isLiChild then { base with listIndex := some idx } else base
    let r := processNode cfg plain cctx k
    let t := processChildren cfg plain base parentTag
      (if isLiChild then idx + 1 else idx) rest
    match r.res with
    | none =>
      ⟨t.frag, t.hasContent,
       r.tagsRemoved + t.tagsRemoved, r.attributesRemoved + t.attributesRemoved⟩
    | some p =>
      let isWs :=
        match p with
        | .node (.text txt) => trimChars txt.data == []
        | _ => false
      ⟨p.toForest.append t.frag,
       (if isWs && !plain then t.hasContent else true),
       r.tagsRemoved + t.tagsRemoved, r.attributesRemoved + t.attributesRemoved⟩

end

/-! `getElementsByTagName('*')` + block check, lines 317-318: is some element
anywhere in the forest a block tag? -/
mutual
def blockInNode : HNode → Bool
  | .text _ => false
  | .elem t _ kids => BLOCK_TAGS.contains t || blockInForest kids
def blockInForest : HForest → Bool
  | .nil => false
  | .cons n f => blockInNode n || blockInForest f
end

/-- The rewrite stage, lines 477-481: top-level nodes processed with the
default context (the body is not an `ol`, so no list index is ever assigned
at top level). -/
def rewritten (cfg : ConversionConfig) (plain : Bool) (body : HForest) : ChOut :=
  processChildren cfg plain {} "body" 1 body

/-- Variant 2 `cleanHtml`, lines 299-542.  The regex cleanup passes 1-8 are
applied in source order to the serialized fragment. -/
def cleanHtml (rawHtml : String) (body : HForest) (parserError : Bool)
    (cfg : ConversionConfig) : CleanResult :=
  if parserError then
    { html := "", stats := ⟨0, 0, 0, 0⟩,
      error := some ("Could not parse the provided content. " ++
        "It may contain unsupported binary data or malformed tags.") }
  else
    let plain := !(blockInForest body) &&
      !(trimChars (HForest.textContent body).data == [])
    let pr := rewritten cfg plain body
    let s0 := HForest.serialize pr.frag
    let s1 := if plain then nlToBr s0 else s0
    let s2 := runRepl brNormStep s1
    let s3 := runRepl bulletStep s2
    let s4 := runRepl ppCloseStep (runRepl ppOpenStep s3)
    let s5 := runRepl pBrStep s4
    let s6 :=
      if !cfg.useParagraphs then
        runRepl pCloseToBrStep (runRepl delPOpenStep s5)
      else s5
    let s7 := runRepl (emptyPairStep "p")
      (runRepl (emptyPairStep "sup")
        (runRepl (emptyPairStep "sub")
          (runRepl (emptyPairStep "u")
            (runRepl (emptyPairStep "i")
              (runRepl (emptyPairStep "b") s6)))))
    let s8 := stripTrailBrs (stripLeadBrs (jsTrim s7))
    { html := s8,
      stats := ⟨rawHtml.length, s8.length, pr.tagsRemoved, pr.attributesRemoved⟩,
      error := none }

end V2

/-! ## Forest literals and configurations used in concrete statements -/

def HForest.ofList : List HNode → HForest
  | [] => .nil
  | n :: l => .cons n (HForest.ofList l)

/-- A text node. -/
def tx (s : String) : HNode := .text s

/-- An attribute-free element. -/
def el (t : String) (kids : List HNode) : HNode := .elem t [] (HForest.ofList kids)

/-- An element with attributes. -/
def elA (t : String) (attrs : List (String × String)) (kids : List HNode) : HNode :=
  .elem t attrs (HForest.ofList kids)

/-- `{ useParagraphs: true, aggressiveWhitespace: false }`. -/
def cfgPP : ConversionConfig := ⟨true, false⟩

/-- `{ useParagraphs: false, aggressiveWhitespace: false }`. -/
def cfgBR : ConversionConfig := ⟨false, false⟩

/-- Claim-side description of ordered-list numbering: the k-th `li` element
child (in document order, counting from 0) of an `ol` is processed with
recorded index `start + k`; other children are processed with the base
context.  The per-child combine is the same as `processChildren`. -/
def V2.claimChildren (cfg : ConversionConfig) (plain : Bool)
    (base : V2.ConversionContext) (start : Int) : Nat → HForest → V2.ChOut
  | _, .nil => ⟨.nil, false, 0, 0⟩
  | k, .cons c rest =>
    let isLi := V2.isLiElemChild "ol" c
    let cctx := if isLi then { base with listIndex := some (start + k) } else base
    let r := V2.processNode cfg plain cctx c
    let t := V2.claimChildren cfg plain base start (if isLi then k + 1 else k) rest
    match r.res with
    | none =>
      ⟨t.frag, t.hasContent,
       r.tagsRemoved + t.tagsRemoved, r.attributesRemoved + t.attributesRemoved⟩
    | some p =>
      let isWs :=
        match p with
        | .node (.text txt) => trimChars txt.data == []
        | _ => false
      ⟨p.toForest.append t.frag,
       (if isWs && !plain then t.hasContent else true),
       r.tagsRemoved + t.tagsRemoved, r.attributesRemoved + t.attributesRemoved⟩

/-! ## Output invariant predicates -/

/-- The allowed output vocabulary (spec §3, §8). -/
def ALLOWED_TAGS : List String :=
  ["b", "i", "u", "sub", "sup", "p", "br", "ul", "ol", "li"]

/-! ## Tag-soup items

The success output of either variant is a flat string.  To state tag closure
(and paragraph exclusion) over that string, a string is decomposed into
items: plain text characters, which are never `<` or `>` (the serializer
escapes both, and no pass introduces them as text), and whole bare tags
`<t>` / `</t>` with `t` in the allowed vocabulary and no attributes.  Every
post-processing pass of the source maps an item-decomposed string to an
item-decomposed string; the proofs are below with the claims. -/

inductive TagItem where
  | chr : Char → TagItem
  | stag : String → TagItem
  | etag : String → TagItem

def TagItem.chars : TagItem → List Char
  | .chr c => [c]
  | .stag t => '<' :: t.data ++ ['>']
  | .etag t => '<' :: '/' :: t.data ++ ['>']

/-- Wellformed item: a text character that is not `<` or `>`, or a bare tag
from the allowed vocabulary. -/
def TagItem.wf : TagItem → Bool
  | .chr c => !(c == '<') && !(c == '>')
  | .stag t => ALLOWED_TAGS.contains t
  | .etag t => ALLOWED_TAGS.contains t

/-- Is the item a `p` tag (opening or closing)? -/
def TagItem.isP : TagItem → Bool
  | .chr _ => false
  | .stag t => t == "p"
  | .etag t => t == "p"

/-- A wellformed item that is not a `p` tag. -/
def TagItem.wfNoP (it : TagItem) : Bool := it.wf && !(it.isP)

def itemsChars (its : List TagItem) : List Char :=
  (its.map TagItem.chars).flatten

/-- Characters at which one of the regex replacement passes of the source can
start a match: `<` (all tag-shaped patterns), `•` and digits (the bullet-fix
pass). -/
def scanHead (c : Char) : Bool := c == '<' || c == '•' || c.isDigit


/-! `ok`: every element of the tree has an allowed tag and an empty attribute
list. -/
mutual
def HNode.ok : HNode → Bool
  | .text _ => true
  | .elem t a kids => ALLOWED_TAGS.contains t && a.isEmpty && kids.ok
def HForest.ok : HForest → Bool
  | .nil => true
  | .cons n f => n.ok && f.ok
end

def PRes.ok : PRes → Bool
  | .node n => n.ok
  | .frag f => f.ok

def okORes : Option PRes → Bool
  | none => true
  | some p => p.ok

def okONode : Option HNode → Bool
  | none => true
  | some n => n.ok

/-! `noP`: no element of the tree is a `p` element. -/
mutual
def HNode.noP : HNode → Bool
  | .text _ => true
  | .elem t _ kids => !(t == "p") && kids.noP
def HForest.noP : HForest → Bool
  | .nil => true
  | .cons n f => n.noP && f.noP
end

def PRes.noP : PRes → Bool
  | .node n => n.noP
  | .frag f => f.noP

def noPORes : Option PRes → Bool
  | none => true
  | some p => p.noP

/-! ## Item decomposition helpers -/

/-- The name part of a bare tag item (`none` for a text character): what
stands between `<` and `>` in its characters. -/
def itemBody : TagItem → Option (List Char)
  | .chr _ => none
  | .stag t => some t.data
  | .etag t => some ('/' :: t.data)

/-- Is the item an opening `p` tag? -/
def TagItem.openP : TagItem → Bool
  | .stag t => t == "p"
  | _ => false

/-- Wellformed item that is not an opening `p` tag: the invariant between the
`<p>`-removal pass and the `</p>`-to-break pass of the second variant. -/
def TagItem.wfNoOpenP (it : TagItem) : Bool := it.wf && !(it.openP)

/-! Item decomposition of the serializer output: escaped text characters
become character items, `br` a bare opening tag, every other element an
opening tag, the children's items, and a closing tag. -/
mutual
def HNode.serializeItems : HNode → List TagItem
  | .text s => ((s.data.map escapeChar).flatten).map TagItem.chr
  | .elem t _ kids =>
    if t == "br" then [.stag "br"]
    else .stag t :: (kids.serializeItems ++ [.etag t])
def HForest.serializeItems : HForest → List TagItem
  | .nil => []
  | .cons n f => n.serializeItems ++ f.serializeItems
end

/-- A string decomposes into items all satisfying `P`. -/
def ItemsOf (P : TagItem → Bool) (s : String) : Prop :=
  ∃ its : List TagItem, its.all P = true ∧ s.data = itemsChars its

/-- A replacement step respects item boundaries on wellformed item strings: a
match at an item boundary consumes whole items and replaces them by items
satisfying `Q`. -/
def StepAligned (Q : TagItem → Bool)
    (step : List Char → Option (List Char × List Char)) : Prop :=
  ∀ (it : TagItem) (its : List TagItem), TagItem.wf it = true →
    its.all TagItem.wf = true →
    ∀ rep rst, step (itemsChars (it :: its)) = some (rep, rst) →
      ∃ reps its2, reps.all Q = true ∧ rep = itemsChars reps ∧
        its2 <:+ its ∧ rst = itemsChars its2

/-- A matcher that, at an item boundary, matches exactly the items whose body
is `pb` and consumes exactly that item (the shape of all the `<...>` literal
regexes of the cleanup passes). -/
def BMatcher (M : List Char → Option (List Char)) (pb : List Char) : Prop :=
  M [] = none ∧
  ∀ it its, TagItem.wf it = true →
    M (itemsChars (it :: its)) =
      if itemBody it = some pb then some (itemsChars its) else none


/-! ## Basic lemmas about the invariants -/

theorem HForest.ok_append : (f : HForest) → ∀ g : HForest,
    f.ok = true → g.ok = true → (f.append g).ok = true
  | .nil, g, _, hg => hg
  | .cons n f, g, h, hg => by
    simp only [HForest.ok, HForest.append, Bool.and_eq_true] at h ⊢
    exact ⟨h.1, HForest.ok_append f g h.2 hg⟩

theorem HForest.noP_append : (f : HForest) → ∀ g : HForest,
    f.noP = true → g.noP = true → (f.append g).noP = true
  | .nil, g, _, hg => hg
  | .cons n f, g, h, hg => by
    simp only [HForest.noP, HForest.append, Bool.and_eq_true] at h ⊢
    exact ⟨h.1, HForest.noP_append f g h.2 hg⟩

theorem PRes.ok_toForest : (p : PRes) → p.toForest.ok = p.ok
  | .node n => by simp [PRes.toForest, PRes.ok, HForest.ok]
  | .frag f => rfl

theorem PRes.noP_toForest : (p : PRes) → p.toForest.noP = p.noP
  | .node n => by simp [PRes.toForest, PRes.noP, HForest.noP]
  | .frag f => rfl

theorem wrapP_ok {r : PRes} {t : String} (hr : r.ok = true)
    (ht : ALLOWED_TAGS.contains t = true) : (wrapP r t).ok = true := by
  have h : (wrapP r t).ok =
      (ALLOWED_TAGS.contains t && List.isEmpty [] && r.toForest.ok) := rfl
  rw [h, PRes.ok_toForest, ht, hr]
  rfl

theorem wrapP_noP {r : PRes} {t : String} (hr : r.noP = true)
    (ht : (t == "p") = false) : (wrapP r t).noP = true := by
  have h : (wrapP r t).noP = (!(t == "p") && r.toForest.noP) := rfl
  rw [h, PRes.noP_toForest, ht, hr]
  rfl

theorem wrapIf_ok (c : Bool) {t : String} {r : PRes} (hr : r.ok = true)
    (ht : ALLOWED_TAGS.contains t = true) : (wrapIf c t r).ok = true := by
  cases c
  · simpa [wrapIf] using hr
  · simpa [wrapIf] using wrapP_ok hr ht

theorem wrapIf_noP (c : Bool) {t : String} {r : PRes} (hr : r.noP = true)
    (ht : (t == "p") = false) : (wrapIf c t r).noP = true := by
  cases c
  · simpa [wrapIf] using hr
  · simpa [wrapIf] using wrapP_noP hr ht

theorem applyWraps_ok (tt : Option String) (hb hi hu hh : Bool) (tn : String)
    {r : PRes} (hr : r.ok = true) : (applyWraps tt hb hi hu hh tn r).ok = true := by
  unfold applyWraps
  exact wrapIf_ok _ (wrapIf_ok _ (wrapIf_ok _ (wrapIf_ok _ (wrapIf_ok _ hr
    (by decide)) (by decide)) (by decide)) (by decide)) (by decide)

theorem applyWraps_noP (tt : Option String) (hb hi hu hh : Bool) (tn : String)
    {r : PRes} (hr : r.noP = true) : (applyWraps tt hb hi hu hh tn r).noP = true := by
  unfold applyWraps
  exact wrapIf_noP _ (wrapIf_noP _ (wrapIf_noP _ (wrapIf_noP _ (wrapIf_noP _ hr
    (by decide)) (by decide)) (by decide)) (by decide)) (by decide)
theorem V1.applyBlock_ok (tt : Option String) (inside : Bool) {r : PRes}
    (hr : r.ok = true) : okORes (V1.applyBlock tt inside r) = true := by
  unfold V1.applyBlock
  split_ifs
  · exact hr
  · exact wrapP_ok (t := "p") hr (by decide)
  · decide
  · exact wrapP_ok (t := "ul") hr (by decide)
  · exact wrapP_ok (t := "ol") hr (by decide)
  · exact wrapP_ok (t := "li") hr (by decide)
  · exact hr

theorem V2.applyBlock_output_ok (tt : Option String) {r : PRes}
    (hr : r.ok = true) : okORes (V2.applyBlock tt r) = true := by
  unfold V2.applyBlock
  split_ifs
  · exact wrapP_ok (t := "p") hr (by decide)
  · show (HNode.ok (.elem "br" [] .nil) && r.toForest.ok) = true
    rw [PRes.ok_toForest, hr]
    decide
  · exact hr

mutual

theorem V1.processNode_ok (cfg : ConversionConfig) :
    (n : HNode) → ∀ ctx : V1.ConversionContext,
      okORes (V1.processNode cfg ctx n).res = true
  | .text s, ctx => by
    simp only [V1.processNode]
    split
    all_goals first
      | rfl
      | (split <;> rfl)
  | .elem tagName attrs kids, ctx => by
    have hkids := V1.processChildren_ok cfg kids (V1.childCtx ctx tagName)
    simp only [V1.processNode]
    split
    · rfl
    · split
      · rfl
      · exact V1.applyBlock_ok _ _ (applyWraps_ok _ _ _ _ _ _ hkids)

theorem V1.processChildren_ok (cfg : ConversionConfig) :
    (f : HForest) → ∀ ctx : V1.ConversionContext,
      ((V1.processChildren cfg ctx f).frag).ok = true
  | .nil, _ => rfl
  | .cons k rest, ctx => by
    have hk := V1.processNode_ok cfg k ctx
    have ht := V1.processChildren_ok cfg rest ctx
    simp only [V1.processChildren]
    cases hres : (V1.processNode cfg ctx k).res with
    | none => simpa using ht
    | some p =>
      rw [hres] at hk
      simp only [okORes] at hk
      exact HForest.ok_append _ _ (by rw [PRes.ok_toForest]; exact hk) ht

end

mutual

theorem V2.processNode_output_ok (cfg : ConversionConfig) (plain : Bool) :
    (n : HNode) → ∀ ctx : V2.ConversionContext,
      okORes (V2.processNode cfg plain ctx n).res = true
  | .text s, ctx => by
    simp only [V2.processNode]
    split <;> rfl
  | .elem tagName attrs kids, ctx => by
    have hkids := V2.processChildren_output_ok cfg plain kids (V2.childBase ctx tagName)
      tagName (V2.olStart attrs)
    simp only [V2.processNode]
    split
    · rfl
    · split
      · rfl
      · refine V2.applyBlock_output_ok _ (applyWraps_ok _ _ _ _ _ _ ?_)
        show HForest.ok _ = true
        split
        · exact hkids
        · simp only [HForest.ok, HNode.ok, Bool.true_and]
          exact hkids

theorem V2.processChildren_output_ok (cfg : ConversionConfig) (plain : Bool) :
    (f : HForest) → ∀ (base : V2.ConversionContext) (parentTag : String) (idx : Int),
      ((V2.processChildren cfg plain base parentTag idx f).frag).ok = true
  | .nil, _, _, _ => rfl
  | .cons k rest, base, parentTag, idx => by
    have hk := V2.processNode_output_ok cfg plain k
      (if V2.isLiElemChild parentTag k then { base with listIndex := some idx } else base)
    have ht := V2.processChildren_output_ok cfg plain rest base parentTag
      (if V2.isLiElemChild parentTag k then idx + 1 else idx)
    simp only [V2.processChildren]
    cases hres : (V2.processNode cfg plain
        (if V2.isLiElemChild parentTag k then { base with listIndex := some idx } else base)
        k).res with
    | none => simp only [hres]; exact ht
    | some p =>
      rw [hres] at hk
      simp only [okORes] at hk
      simp only [hres]
      exact HForest.ok_append _ _ (by rw [PRes.ok_toForest]; exact hk) ht

end


mutual

theorem V1.cleanNode_ok : (n : HNode) → n.ok = true → okONode (V1.cleanNode n) = true
  | .text s, _ => rfl
  | .elem t a kids, h => by
    simp only [HNode.ok, Bool.and_eq_true] at h
    have hk := V1.cleanForest_ok kids h.2
    simp only [V1.cleanNode]
    split
    · rfl
    · simp only [okONode, HNode.ok, Bool.and_eq_true]
      exact ⟨h.1, hk⟩

theorem V1.cleanForest_ok : (f : HForest) → f.ok = true → (V1.cleanForest f).ok = true
  | .nil, _ => rfl
  | .cons n f, h => by
    simp only [HForest.ok, Bool.and_eq_true] at h
    have hn := V1.cleanNode_ok n h.1
    have hf := V1.cleanForest_ok f h.2
    simp only [V1.cleanForest]
    cases hres : V1.cleanNode n with
    | none => exact hf
    | some m =>
      rw [hres] at hn
      simp only [okONode] at hn
      simp only [HForest.ok, Bool.and_eq_true]
      exact ⟨hn, hf⟩

end

mutual

theorem V1.unwrapPNode_ok : (n : HNode) → n.ok = true → (V1.unwrapPNode n).ok = true
  | .text s, _ => rfl
  | .elem t a kids, h => by
    simp only [HNode.ok, Bool.and_eq_true] at h
    have hk := V1.unwrapPForest_ok kids h.2
    simp only [V1.unwrapPNode]
    split
    · exact HForest.ok_append _ _ hk (by decide)
    · simp only [HForest.ok, HNode.ok, Bool.and_eq_true]
      exact ⟨⟨h.1, hk⟩, trivial⟩

theorem V1.unwrapPForest_ok : (f : HForest) → f.ok = true → (V1.unwrapPForest f).ok = true
  | .nil, _ => rfl
  | .cons n f, h => by
    simp only [HForest.ok, Bool.and_eq_true] at h
    exact HForest.ok_append _ _ (V1.unwrapPNode_ok n h.1) (V1.unwrapPForest_ok f h.2)

end

mutual

theorem V1.unwrapPNode_noP : (n : HNode) → (V1.unwrapPNode n).noP = true
  | .text s => rfl
  | .elem t a kids => by
    have hk := V1.unwrapPForest_noP kids
    simp only [V1.unwrapPNode]
    split
    · exact HForest.noP_append _ _ hk (by decide)
    · rename_i hne
      simp only [HForest.noP, HNode.noP, Bool.and_eq_true, Bool.not_eq_true']
      refine ⟨⟨?_, hk⟩, trivial⟩
      cases hpe : (t == "p") with
      | false => rfl
      | true => exact absurd hpe hne

theorem V1.unwrapPForest_noP : (f : HForest) → (V1.unwrapPForest f).noP = true
  | .nil => rfl
  | .cons n f =>
    HForest.noP_append _ _ (V1.unwrapPNode_noP n) (V1.unwrapPForest_noP f)

end

theorem V1.applyBlock_noP (tt : Option String) {r : PRes} (hr : r.noP = true) :
    noPORes (V1.applyBlock tt true r) = true := by
  unfold V1.applyBlock
  split_ifs with h1 h2 h3 h4 h5 h6
  · exact hr
  · exact absurd rfl h2
  · decide
  · exact wrapP_noP (t := "ul") hr (by decide)
  · exact wrapP_noP (t := "ol") hr (by decide)
  · exact wrapP_noP (t := "li") hr (by decide)
  · exact hr

mutual

theorem V1.processNode_noP (cfg : ConversionConfig) :
    (n : HNode) → ∀ ctx : V1.ConversionContext, ctx.insideListListItem = true →
      noPORes (V1.processNode cfg ctx n).res = true
  | .text s, ctx, _ => by
    simp only [V1.processNode]
    split
    all_goals first
      | rfl
      | (split <;> rfl)
  | .elem tagName attrs kids, ctx, h => by
    have hkids := V1.processChildren_noP cfg kids (V1.childCtx ctx tagName)
      (by simp [V1.childCtx, h])
    simp only [V1.processNode]
    split
    · rfl
    · split
      · rfl
      · rw [h]
        exact V1.applyBlock_noP _ (applyWraps_noP _ _ _ _ _ _ hkids)

theorem V1.processChildren_noP (cfg : ConversionConfig) :
    (f : HForest) → ∀ ctx : V1.ConversionContext, ctx.insideListListItem = true →
      ((V1.processChildren cfg ctx f).frag).noP = true
  | .nil, _, _ => rfl
  | .cons k rest, ctx, h => by
    have hk := V1.processNode_noP cfg k ctx h
    have ht := V1.processChildren_noP cfg rest ctx h
    simp only [V1.processChildren]
    cases hres : (V1.processNode cfg ctx k).res with
    | none => simpa using ht
    | some p =>
      rw [hres] at hk
      simp only [noPORes] at hk
      exact HForest.noP_append _ _ (by rw [PRes.noP_toForest]; exact hk) ht

end

mutual

theorem V2.processNode_attrs (cfg : ConversionConfig) (plain : Bool) :
    (n : HNode) → ∀ ctx : V2.ConversionContext,
      (V2.processNode cfg plain ctx n).attributesRemoved = 0
  | .text s, ctx => by
    simp only [V2.processNode]
    split <;> rfl
  | .elem tagName attrs kids, ctx => by
    have hkids := V2.processChildren_attrs cfg plain kids (V2.childBase ctx tagName)
      tagName (V2.olStart attrs)
    simp only [V2.processNode]
    split
    · rfl
    · split
      · exact hkids
      · exact hkids

theorem V2.processChildren_attrs (cfg : ConversionConfig) (plain : Bool) :
    (f : HForest) → ∀ (base : V2.ConversionContext) (parentTag : String) (idx : Int),
      (V2.processChildren cfg plain base parentTag idx f).attributesRemoved = 0
  | .nil, _, _, _ => rfl
  | .cons k rest, base, parentTag, idx => by
    have hk := V2.processNode_attrs cfg plain k
      (if V2.isLiElemChild parentTag k then { base with listIndex := some idx } else base)
    have ht := V2.processChildren_attrs cfg plain rest base parentTag
      (if V2.isLiElemChild parentTag k then idx + 1 else idx)
    simp only [V2.processChildren]
    cases hres : (V2.processNode cfg plain
        (if V2.isLiElemChild parentTag k then { base with listIndex := some idx } else base)
        k).res with
    | none =>
      simp only [hres]
      omega
    | some p =>
      simp only [hres]
      omega

end

/-- `RegExp.test` succeeds exactly when the anchored matcher succeeds on some
suffix of the input. -/
theorem searchB_iff (m : List Char → Bool) :
    (l : List Char) → (searchB m l = true ↔ ∃ t, t <:+ l ∧ m t = true)
  | [] => by
    simp only [searchB, List.suffix_nil]
    constructor
    · intro h
      exact ⟨[], rfl, h⟩
    · rintro ⟨t, ht, hm⟩
      exact ht ▸ hm
  | c :: cs => by
    simp only [searchB, Bool.or_eq_true]
    rw [searchB_iff m cs]
    constructor
    · rintro (h | ⟨t, ht, hm⟩)
      · exact ⟨c :: cs, List.suffix_rfl, h⟩
      · exact ⟨t, ht.trans (List.suffix_cons c cs), hm⟩
    · rintro ⟨t, ht, hm⟩
      rcases List.suffix_cons_iff.mp ht with h | h
      · exact Or.inl (h ▸ hm)
      · exact Or.inr ⟨t, h, hm⟩

/-- The source's post-incremented mutable counter threading equals the claim's
`start + position` description. -/
theorem V2.olIndexing (cfg : ConversionConfig) (plain : Bool)
    (base : V2.ConversionContext) (start : Int) :
    (f : HForest) → ∀ k : Nat,
      V2.processChildren cfg plain base "ol" (start + k) f =
        V2.claimChildren cfg plain base start k f
  | .nil, _ => rfl
  | .cons c rest, k => by
    have hih1 := V2.olIndexing cfg plain base start rest (k + 1)
    have hih0 := V2.olIndexing cfg plain base start rest k
    have hcast : start + (k : Int) + 1 = start + ((k + 1 : Nat) : Int) := by
      push_cast
      ring
    simp only [V2.processChildren, V2.claimChildren]
    cases hc : V2.isLiElemChild "ol" c with
    | false =>
      simp only [if_neg (show ¬(false = true) by decide)]
      rw [hih0]
    | true =>
      simp only [if_pos (show true = true from rfl), if_true]
      first
        | rw [hih1]
        | rw [hcast, hih1]

theorem strAppendDotSpace_ne_empty (s : String) : (s ++ ". " == "") = false := by
  cases hq : (s ++ ". " == "") with
  | false => rfl
  | true =>
    have he : s ++ ". " = "" := eq_of_beq hq
    have hlen := congrArg String.length he
    rw [String.length_append] at hlen
    have h2 : (". " : String).length = 2 := rfl
    have h0 : ("" : String).length = 0 := rfl
    omega

theorem V2.liMarker_ne_empty (ctx : V2.ConversionContext) :
    (V2.liMarker ctx == "") = false := by
  unfold V2.liMarker
  split
  · exact strAppendDotSpace_ne_empty _
  · rfl

theorem V1.brMapped_not_ignored (t : String)
    (h : V1.BASE_TAG_MAP.lookup t = some "br") : IGNORE_TAGS.contains t = false := by
  cases hc : IGNORE_TAGS.contains t with
  | false => rfl
  | true =>
    have hmem : t ∈ IGNORE_TAGS := by simpa using hc
    fin_cases hmem <;> exact absurd h (by decide)

theorem V2.brMapped_facts (t : String)
    (h : V2.BASE_TAG_MAP.lookup t = some "br") :
    IGNORE_TAGS.contains t = false ∧ isHeaderTag t = false ∧ (t == "div") = false := by
  refine ⟨?_, ?_, ?_⟩
  · cases hc : IGNORE_TAGS.contains t with
    | false => rfl
    | true =>
      have hmem : t ∈ IGNORE_TAGS := by simpa using hc
      fin_cases hmem <;> exact absurd h (by decide)
  · cases hh : isHeaderTag t with
    | false => rfl
    | true =>
      simp only [isHeaderTag, Bool.or_eq_true, beq_iff_eq] at hh
      rcases hh with ((((rfl | rfl) | rfl) | rfl) | rfl) | rfl <;>
        exact absurd h (by decide)
  · cases hd : (t == "div") with
    | false => rfl
    | true =>
      have : t = "div" := eq_of_beq hd
      subst this
      exact absurd h (by decide)

/-! ## Basic lemmas about items -/

theorem itemsChars_nil : itemsChars [] = [] := rfl

theorem itemsChars_cons (it : TagItem) (its : List TagItem) :
    itemsChars (it :: its) = it.chars ++ itemsChars its := by
  simp [itemsChars]

theorem itemsChars_append (a b : List TagItem) :
    itemsChars (a ++ b) = itemsChars a ++ itemsChars b := by
  simp [itemsChars]

theorem itemsChars_map_chr : ∀ l : List Char, itemsChars (l.map TagItem.chr) = l
  | [] => rfl
  | c :: cs => by
    rw [List.map_cons, itemsChars_cons, itemsChars_map_chr cs]
    rfl

theorem chars_cons : ∀ it : TagItem, ∃ c cs, TagItem.chars it = c :: cs
  | .chr c => ⟨c, [], rfl⟩
  | .stag t => ⟨'<', t.data ++ ['>'], rfl⟩
  | .etag t => ⟨'<', '/' :: t.data ++ ['>'], rfl⟩

theorem itemsChars_suffix_length {a b : List TagItem} (h : a <:+ b) :
    (itemsChars a).length ≤ (itemsChars b).length := by
  obtain ⟨p, hp⟩ := h
  rw [← hp, itemsChars_append, List.length_append]
  omega

theorem all_of_suffix {P : TagItem → Bool} {a b : List TagItem}
    (hb : b.all P = true) (h : a <:+ b) : a.all P = true := by
  rw [List.all_eq_true] at hb ⊢
  exact fun x hx => hb x (h.subset hx)

theorem all_mono {P Q : TagItem → Bool} (h : ∀ it, P it = true → Q it = true) :
    ∀ {l : List TagItem}, l.all P = true → l.all Q = true := by
  intro l hl
  rw [List.all_eq_true] at hl ⊢
  exact fun x hx => h x (hl x hx)

theorem ItemsOf.mono {P Q : TagItem → Bool} (h : ∀ it, P it = true → Q it = true)
    {s : String} : ItemsOf P s → ItemsOf Q s := by
  rintro ⟨its, hall, hchars⟩
  exact ⟨its, all_mono h hall, hchars⟩

theorem wfNoP_wf {it : TagItem} (h : TagItem.wfNoP it = true) :
    TagItem.wf it = true := by
  rw [TagItem.wfNoP, Bool.and_eq_true] at h
  exact h.1

theorem wfNoOpenP_wf {it : TagItem} (h : TagItem.wfNoOpenP it = true) :
    TagItem.wf it = true := by
  rw [TagItem.wfNoOpenP, Bool.and_eq_true] at h
  exact h.1

theorem wfNoP_wfNoOpenP {it : TagItem} (h : TagItem.wfNoP it = true) :
    TagItem.wfNoOpenP it = true := by
  rw [TagItem.wfNoP, Bool.and_eq_true] at h
  rw [TagItem.wfNoOpenP, Bool.and_eq_true]
  refine ⟨h.1, ?_⟩
  cases it with
  | chr c => rfl
  | stag t => exact h.2
  | etag t => rfl

/-- Character facts about the allowed tag names, used throughout: no tag name
character can start a regex match, be an angle bracket, be whitespace, or
change under lowercasing. -/
theorem allowed_tag_chars : ∀ t ∈ ALLOWED_TAGS, ∀ c ∈ t.data,
    scanHead c = false ∧ (c == '<') = false ∧ (c == '>') = false ∧
    isJsSpace c = false ∧ c.toLower = c := by decide

theorem contains_allowed {t : String} (h : ALLOWED_TAGS.contains t = true) :
    t ∈ ALLOWED_TAGS := by simpa using h

theorem toNat_ofNat_valid {m : Nat} (h : m.isValidChar) :
    (Char.ofNat m).toNat = m := by
  unfold Char.ofNat
  rw [dif_pos h]
  rfl

/-- The preimage of `Char.toLower` at a character below `A` is just that
character. -/
theorem toLower_eq_low {c d : Char} (hd : d.toNat < 65) (h : c.toLower = d) :
    c = d := by
  unfold Char.toLower at h
  by_cases hrange : c.toNat ≥ 65 ∧ c.toNat ≤ 90
  · rw [if_pos hrange] at h
    have hv : (c.toNat + 32).isValidChar := Or.inl (by omega)
    have := congrArg Char.toNat h
    rw [toNat_ofNat_valid hv] at this
    omega
  · rwa [if_neg hrange] at h

/-- No character strictly inside an item's character rendering can start a
match of one of the cleanup regexes. -/
theorem wf_tail_no_scanHead : ∀ it : TagItem, TagItem.wf it = true →
    ∀ c ∈ (TagItem.chars it).tail, scanHead c = false := by
  intro it hwf c hc
  cases it with
  | chr a => simp [TagItem.chars] at hc
  | stag t =>
    have ht := contains_allowed hwf
    simp only [TagItem.chars, List.tail_cons] at hc
    rcases List.mem_append.mp hc with h | h
    · exact (allowed_tag_chars t ht c h).1
    · rw [List.mem_singleton] at h; subst h; decide
  | etag t =>
    have ht := contains_allowed hwf
    simp only [TagItem.chars, List.tail_cons] at hc
    rcases List.mem_cons.mp hc with h | h
    · subst h; decide
    · rcases List.mem_append.mp h with h2 | h2
      · exact (allowed_tag_chars t ht c h2).1
      · rw [List.mem_singleton] at h2; subst h2; decide

/-! ## Matching `>`-terminated literal patterns at item boundaries -/

theorem matchLitCS_gt : ∀ (p q : List Char), (∀ c ∈ p, (c == '>') = false) →
    (∀ c ∈ q, (c == '>') = false) → ∀ tail,
    matchLitCS (p ++ ['>']) (q ++ '>' :: tail) =
      if p = q then some tail else none := by
  intro p
  induction p with
  | nil =>
    intro q hp hq tail
    cases q with
    | nil => simp [matchLitCS]
    | cons c cs =>
      have hc : c ≠ '>' := by
        have := hq c (List.mem_cons_self c cs)
        rwa [beq_eq_false_iff_ne] at this
      simp only [List.nil_append, List.cons_append, matchLitCS, List.append_eq]
      rw [if_neg (by simp only [beq_iff_eq]; exact fun h => hc h.symm),
        if_neg (by simp)]
  | cons a as IH =>
    intro q hp hq tail
    cases q with
    | nil =>
      have ha : a ≠ '>' := by
        have := hp a (List.mem_cons_self a as)
        rwa [beq_eq_false_iff_ne] at this
      simp only [List.cons_append, List.nil_append, matchLitCS, List.append_eq]
      rw [if_neg (by simp only [beq_iff_eq]; exact ha), if_neg (by simp)]
    | cons c cs =>
      simp only [List.cons_append, matchLitCS, List.append_eq]
      by_cases hac : a = c
      · subst hac
        rw [if_pos (by simp),
          IH cs (fun x hx => hp x (List.mem_cons_of_mem a hx))
            (fun x hx => hq x (List.mem_cons_of_mem a hx)) tail]
        by_cases h2 : as = cs
        · rw [if_pos h2, if_pos (by rw [h2])]
        · rw [if_neg h2, if_neg (by simp [h2])]
      · rw [if_neg (by simp [hac]), if_neg (by simp [hac])]

theorem matchLitCI_gt : ∀ (p q : List Char), (∀ c ∈ p, (c.toLower == '>') = false) →
    (∀ c ∈ q, (c.toLower == '>') = false) → ∀ tail,
    matchLitCI (p ++ ['>']) (q ++ '>' :: tail) =
      if p.map Char.toLower = q.map Char.toLower then some tail else none := by
  have hgt : ('>' : Char).toLower = '>' := by decide
  intro p
  induction p with
  | nil =>
    intro q hp hq tail
    cases q with
    | nil => simp [matchLitCI]
    | cons c cs =>
      have hc : c.toLower ≠ '>' := by
        have := hq c (List.mem_cons_self c cs)
        rwa [beq_eq_false_iff_ne] at this
      simp only [List.nil_append, List.cons_append, matchLitCI, List.append_eq]
      rw [if_neg (by simp only [beq_iff_eq, hgt]; exact fun h => hc h.symm),
        if_neg (by simp)]
  | cons a as IH =>
    intro q hp hq tail
    cases q with
    | nil =>
      have ha : a.toLower ≠ '>' := by
        have := hp a (List.mem_cons_self a as)
        rwa [beq_eq_false_iff_ne] at this
      simp only [List.cons_append, List.nil_append, matchLitCI, List.append_eq]
      rw [if_neg (by simp only [beq_iff_eq, hgt]; exact ha), if_neg (by simp)]
    | cons c cs =>
      simp only [List.cons_append, matchLitCI, List.map_cons, List.append_eq]
      by_cases hac : a.toLower = c.toLower
      · rw [if_pos (by simp [hac]),
          IH cs (fun x hx => hp x (List.mem_cons_of_mem a hx))
            (fun x hx => hq x (List.mem_cons_of_mem c hx)) tail]
        by_cases h2 : as.map Char.toLower = cs.map Char.toLower
        · rw [if_pos h2, if_pos (by rw [h2, hac])]
        · rw [if_neg h2, if_neg (by simp [h2])]
      · rw [if_neg (by simp [hac]), if_neg (by simp [hac])]

theorem itemsChars_chr (c : Char) (its : List TagItem) :
    itemsChars (.chr c :: its) = c :: itemsChars its := by
  rw [itemsChars_cons]; rfl

theorem itemsChars_stag (t : String) (its : List TagItem) :
    itemsChars (.stag t :: its) = '<' :: (t.data ++ '>' :: itemsChars its) := by
  rw [itemsChars_cons]
  simp [TagItem.chars]

theorem itemsChars_etag (t : String) (its : List TagItem) :
    itemsChars (.etag t :: its) =
      '<' :: (('/' :: t.data) ++ '>' :: itemsChars its) := by
  rw [itemsChars_cons]
  simp [TagItem.chars]

theorem matchCS_cons (p c : Char) (ps cs : List Char) :
    matchLitCS (p :: ps) (c :: cs) =
      if p == c then matchLitCS ps cs else none := rfl

theorem matchCI_cons (p c : Char) (ps cs : List Char) :
    matchLitCI (p :: ps) (c :: cs) =
      if p.toLower == c.toLower then matchLitCI ps cs else none := rfl

/-- A wellformed character item never starts with `<`. -/
theorem wf_chr_ne_lt {c : Char} (h : TagItem.wf (.chr c) = true) : c ≠ '<' := by
  intro hx
  subst hx
  exact absurd h (by decide)

theorem wf_chr_ne_gt {c : Char} (h : TagItem.wf (.chr c) = true) : c ≠ '>' := by
  intro hx
  subst hx
  exact absurd h (by decide)

theorem bmatcher_CS (pb : List Char) (hpb : ∀ c ∈ pb, (c == '>') = false) :
    BMatcher (matchLitCS ('<' :: (pb ++ ['>']))) pb := by
  refine ⟨rfl, ?_⟩
  intro it its hwf
  cases it with
  | chr c =>
    have h1 : ¬ (('<' == c) = true) := by
      simp only [beq_iff_eq]
      exact fun h => wf_chr_ne_lt hwf h.symm
    have h2 : ¬ (itemBody (TagItem.chr c) = some pb) := by simp [itemBody]
    rw [itemsChars_chr, matchCS_cons, if_neg h1, if_neg h2]
  | stag t =>
    have ht := contains_allowed hwf
    have hq : ∀ c ∈ t.data, (c == '>') = false :=
      fun c hc => (allowed_tag_chars t ht c hc).2.2.1
    rw [itemsChars_stag, matchCS_cons, if_pos (by simp),
      matchLitCS_gt pb t.data hpb hq]
    by_cases hbp : pb = t.data
    · rw [if_pos hbp, if_pos (by simp [itemBody, hbp])]
    · have h2 : ¬ (itemBody (TagItem.stag t) = some pb) := by
        simp only [itemBody, Option.some.injEq]
        exact fun h => hbp h.symm
      rw [if_neg hbp, if_neg h2]
  | etag t =>
    have ht := contains_allowed hwf
    have hq : ∀ c ∈ '/' :: t.data, (c == '>') = false := by
      intro c hc
      rcases List.mem_cons.mp hc with h | h
      · subst h; decide
      · exact (allowed_tag_chars t ht c h).2.2.1
    rw [itemsChars_etag, matchCS_cons, if_pos (by simp),
      matchLitCS_gt pb ('/' :: t.data) hpb hq]
    by_cases hbp : pb = '/' :: t.data
    · rw [if_pos hbp, if_pos (by simp [itemBody, hbp])]
    · have h2 : ¬ (itemBody (TagItem.etag t) = some pb) := by
        simp only [itemBody, Option.some.injEq]
        exact fun h => hbp h.symm
      rw [if_neg hbp, if_neg h2]

theorem bmatcher_CI (pb : List Char) (hpb : ∀ c ∈ pb, (c.toLower == '>') = false)
    (hlow : pb.map Char.toLower = pb) :
    BMatcher (matchLitCI ('<' :: (pb ++ ['>']))) pb := by
  refine ⟨rfl, ?_⟩
  intro it its hwf
  cases it with
  | chr c =>
    have h1 : ¬ (('<'.toLower == c.toLower) = true) := by
      simp only [beq_iff_eq, show ('<' : Char).toLower = '<' from by decide]
      intro h
      exact wf_chr_ne_lt hwf (toLower_eq_low (by decide) h.symm)
    have h2 : ¬ (itemBody (TagItem.chr c) = some pb) := by simp [itemBody]
    rw [itemsChars_chr, matchCI_cons, if_neg h1, if_neg h2]
  | stag t =>
    have ht := contains_allowed hwf
    have hfix : t.data.map Char.toLower = t.data := by
      have h : ∀ c ∈ t.data, Char.toLower c = id c :=
        fun c hc => (allowed_tag_chars t ht c hc).2.2.2.2
      rw [List.map_congr_left h, List.map_id]
    have hq : ∀ c ∈ t.data, (c.toLower == '>') = false := by
      intro c hc
      rw [(allowed_tag_chars t ht c hc).2.2.2.2]
      exact (allowed_tag_chars t ht c hc).2.2.1
    rw [itemsChars_stag, matchCI_cons, if_pos (by simp),
      matchLitCI_gt pb t.data hpb hq, hlow, hfix]
    by_cases hbp : pb = t.data
    · rw [if_pos hbp, if_pos (by simp [itemBody, hbp])]
    · have h2 : ¬ (itemBody (TagItem.stag t) = some pb) := by
        simp only [itemBody, Option.some.injEq]
        exact fun h => hbp h.symm
      rw [if_neg hbp, if_neg h2]
  | etag t =>
    have ht := contains_allowed hwf
    have hfix : ('/' :: t.data).map Char.toLower = '/' :: t.data := by
      have h : ∀ c ∈ '/' :: t.data, Char.toLower c = id c := by
        intro c hc
        rcases List.mem_cons.mp hc with hx | hx
        · subst hx; decide
        · exact (allowed_tag_chars t ht c hx).2.2.2.2
      rw [List.map_congr_left h, List.map_id]
    have hq : ∀ c ∈ '/' :: t.data, (c.toLower == '>') = false := by
      intro c hc
      rcases List.mem_cons.mp hc with hx | hx
      · subst hx; decide
      · rw [(allowed_tag_chars t ht c hx).2.2.2.2]
        exact (allowed_tag_chars t ht c hx).2.2.1
    rw [itemsChars_etag, matchCI_cons, if_pos (by simp),
      matchLitCI_gt pb ('/' :: t.data) hpb hq, hlow, hfix]
    by_cases hbp : pb = '/' :: t.data
    · rw [if_pos hbp, if_pos (by simp [itemBody, hbp])]
    · have h2 : ¬ (itemBody (TagItem.etag t) = some pb) := by
        simp only [itemBody, Option.some.injEq]
        exact fun h => hbp h.symm
      rw [if_neg hbp, if_neg h2]

/-! ## Item alignment of scanning primitives -/

/-- `takeWhile`/`dropWhile` with a predicate failing on `<` stop at an item
boundary: the taken part is whole character items, the rest whole items. -/
theorem dropWhile_items (p : Char → Bool) (hp : p '<' = false) :
    ∀ its : List TagItem, ∃ pre its2, its = pre ++ its2 ∧
      (∀ it ∈ pre, ∃ c, it = TagItem.chr c ∧ p c = true) ∧
      (itemsChars its).takeWhile p = itemsChars pre ∧
      (itemsChars its).dropWhile p = itemsChars its2 := by
  intro its
  induction its with
  | nil => exact ⟨[], [], rfl, by simp, by simp [itemsChars_nil], by simp [itemsChars_nil]⟩
  | cons it rest IH =>
    cases it with
    | chr c =>
      by_cases hc : p c = true
      · obtain ⟨pre, its2, hdec, hpre, htk, hdr⟩ := IH
        refine ⟨.chr c :: pre, its2, by rw [List.cons_append, ← hdec], ?_, ?_, ?_⟩
        · intro x hx
          rcases List.mem_cons.mp hx with h | h
          · exact ⟨c, h, hc⟩
          · exact hpre x h
        · rw [itemsChars_chr, itemsChars_chr, List.takeWhile_cons, if_pos hc, htk]
        · rw [itemsChars_chr, List.dropWhile_cons, if_pos hc, hdr]
      · refine ⟨[], .chr c :: rest, rfl, by simp, ?_, ?_⟩
        · rw [itemsChars_chr, List.takeWhile_cons, if_neg hc, itemsChars_nil]
        · rw [itemsChars_chr, List.dropWhile_cons, if_neg hc]
    | stag t =>
      refine ⟨[], .stag t :: rest, rfl, by simp, ?_, ?_⟩
      · rw [itemsChars_stag, List.takeWhile_cons, if_neg (by rw [hp]; simp),
          itemsChars_nil]
      · rw [itemsChars_stag, List.dropWhile_cons, if_neg (by rw [hp]; simp),
          ← itemsChars_stag]
    | etag t =>
      refine ⟨[], .etag t :: rest, rfl, by simp, ?_, ?_⟩
      · rw [itemsChars_etag, List.takeWhile_cons, if_neg (by rw [hp]; simp),
          itemsChars_nil]
      · rw [itemsChars_etag, List.dropWhile_cons, if_neg (by rw [hp]; simp),
          ← itemsChars_etag]

/-- `dropWS` restated through `dropWhile_items`. -/
theorem dropWS_items (its : List TagItem) :
    ∃ its2, its2 <:+ its ∧ dropWS (itemsChars its) = itemsChars its2 := by
  obtain ⟨pre, its2, hdec, _, _, hdr⟩ := dropWhile_items isJsSpace (by decide) its
  exact ⟨its2, ⟨pre, hdec.symm⟩, hdr⟩

/-- An item string starting with a character other than `<` starts with a
character item. -/
theorem items_head_chr {c : Char} {rest : List Char} {its : List TagItem}
    (h : itemsChars its = c :: rest) (hc : c ≠ '<') :
    ∃ its2, its = .chr c :: its2 ∧ rest = itemsChars its2 := by
  cases its with
  | nil => rw [itemsChars_nil] at h; exact absurd h (by simp)
  | cons it its2 =>
    cases it with
    | chr a =>
      rw [itemsChars_chr] at h
      injection h with h1 h2
      subst h1
      exact ⟨its2, rfl, h2.symm⟩
    | stag t =>
      rw [itemsChars_stag] at h
      injection h with h1 _
      exact absurd h1.symm hc
    | etag t =>
      rw [itemsChars_etag] at h
      injection h with h1 _
      exact absurd h1.symm hc

/-! ## The one-pass replace driver preserves item decomposition -/

theorem replFuel_nil (step : List Char → Option (List Char × List Char)) :
    ∀ fuel, replFuel step fuel [] = [] := by
  intro fuel
  cases fuel <;> rfl

theorem replFuel_cons_eq (step : List Char → Option (List Char × List Char))
    (f : Nat) (c : Char) (cs : List Char) :
    replFuel step (f + 1) (c :: cs) =
      match step (c :: cs) with
      | some (rep, rest) => rep ++ replFuel step f rest
      | none => c :: replFuel step f cs := rfl

/-- Characters at which the step cannot match are copied verbatim. -/
theorem replFuel_skip (step : List Char → Option (List Char × List Char)) :
    ∀ (ds tail : List Char) (fuel : Nat),
      ds.length ≤ fuel →
      (∀ i, i < ds.length → step (ds.drop i ++ tail) = none) →
      replFuel step fuel (ds ++ tail) =
        ds ++ replFuel step (fuel - ds.length) tail := by
  intro ds
  induction ds with
  | nil => intro tail fuel _ _; simp
  | cons d dr IH =>
    intro tail fuel hlen hnone
    cases fuel with
    | zero => simp at hlen
    | succ f =>
      have h0 : step (d :: (dr ++ tail)) = none := by
        have := hnone 0 (by simp)
        simpa using this
      rw [List.cons_append, replFuel_cons_eq, h0]
      have hrec := IH tail f (by simp at hlen; omega)
        (fun i hi => by
          have := hnone (i + 1) (by simp; omega)
          simpa [List.drop_succ_cons] using this)
      rw [hrec]
      simp [Nat.succ_sub_succ]

/-- Master preservation theorem for the one-pass global replace: if every
match of `step` at a wellformed item boundary consumes whole items and
replaces them by `Qr`-items, matches start only at scan-head characters, and
every item copied without a match satisfies `Q`, then the pass maps item
strings over `P` to item strings over `Q`. -/
theorem replFuel_items (step : List Char → Option (List Char × List Char))
    (P Q Qr : TagItem → Bool)
    (HPwf : ∀ it, P it = true → TagItem.wf it = true)
    (HQr : ∀ it, Qr it = true → Q it = true)
    (Hhead : ∀ c cs, step (c :: cs) ≠ none → scanHead c = true)
    (Halign : StepAligned Qr step)
    (Hcopy : ∀ it its, P it = true → its.all P = true →
      step (itemsChars (it :: its)) = none → Q it = true) :
    ∀ n its fuel, its.length ≤ n → its.all P = true →
      (itemsChars its).length ≤ fuel →
      ∃ its2, its2.all Q = true ∧
        replFuel step fuel (itemsChars its) = itemsChars its2 := by
  intro n
  induction n with
  | zero =>
    intro its fuel hn _ _
    have h0 : its = [] := List.eq_nil_of_length_eq_zero (Nat.le_zero.mp hn)
    subst h0
    exact ⟨[], rfl, by rw [itemsChars_nil, replFuel_nil]⟩
  | succ n IH =>
    intro its fuel hn hall hfuel
    cases its with
    | nil => exact ⟨[], rfl, by rw [itemsChars_nil, replFuel_nil]⟩
    | cons it rest =>
      rw [List.all_cons, Bool.and_eq_true] at hall
      obtain ⟨hPit, hPrest⟩ := hall
      have hwfit := HPwf it hPit
      have hwfrest : rest.all TagItem.wf = true := all_mono HPwf hPrest
      obtain ⟨c, ds, hcds⟩ := chars_cons it
      have hexp : itemsChars (it :: rest) = c :: (ds ++ itemsChars rest) := by
        rw [itemsChars_cons, hcds, List.cons_append]
      have hlen : 1 + ds.length + (itemsChars rest).length ≤ fuel := by
        rw [hexp] at hfuel
        simp [List.length_cons, List.length_append] at hfuel
        omega
      cases fuel with
      | zero => omega
      | succ f =>
        cases hstep : step (c :: (ds ++ itemsChars rest)) with
        | some pr =>
          obtain ⟨rep, rst⟩ := pr
          have hkey : replFuel step (f + 1) (c :: (ds ++ itemsChars rest)) =
              rep ++ replFuel step f rst := by
            rw [replFuel_cons_eq, hstep]
          have hstep2 : step (itemsChars (it :: rest)) = some (rep, rst) := by
            rw [hexp]; exact hstep
          obtain ⟨reps, its2m, hQreps, hrep, hsuf, hrst⟩ :=
            Halign it rest hwfit hwfrest rep rst hstep2
          have hlen2 : (itemsChars its2m).length ≤ f := by
            have := itemsChars_suffix_length hsuf
            omega
          obtain ⟨its3, hQ3, hrec⟩ := IH its2m f
            (by have := hsuf.length_le; simp at hn; omega)
            (all_of_suffix hPrest hsuf) hlen2
          refine ⟨reps ++ its3, ?_, ?_⟩
          · rw [List.all_append, Bool.and_eq_true]
            exact ⟨all_mono HQr hQreps, hQ3⟩
          · rw [hexp, hkey, hrep, hrst, hrec, ← itemsChars_append]
        | none =>
          have hds : ∀ i, i < ds.length → step (ds.drop i ++ itemsChars rest) = none := by
            intro i hi
            have htail : ∀ x ∈ ds, scanHead x = false := by
              intro x hx
              have hxt : x ∈ (TagItem.chars it).tail := by
                rw [hcds]; exact hx
              exact wf_tail_no_scanHead it hwfit x hxt
            obtain ⟨d, dr, hdrop⟩ : ∃ d dr, ds.drop i = d :: dr := by
              cases hd : ds.drop i with
              | nil =>
                have := List.drop_eq_nil_iff.mp hd
                omega
              | cons d dr => exact ⟨d, dr, rfl⟩
            rw [hdrop, List.cons_append]
            by_contra hne
            have hdmem : d ∈ ds := by
              have hdm : d ∈ ds.drop i := by rw [hdrop]; exact List.mem_cons_self d dr
              exact List.drop_subset i ds hdm
            exact absurd (Hhead d (dr ++ itemsChars rest) hne)
              (by rw [htail d hdmem]; simp)
          have hkey : replFuel step (f + 1) (c :: (ds ++ itemsChars rest)) =
              c :: replFuel step f (ds ++ itemsChars rest) := by
            rw [replFuel_cons_eq, hstep]
          have hskip := replFuel_skip step ds (itemsChars rest) f (by omega) hds
          obtain ⟨its3, hQ3, hrec⟩ := IH rest (f - ds.length)
            (by simp at hn; omega) hPrest (by omega)
          refine ⟨it :: its3, ?_, ?_⟩
          · rw [List.all_cons, Bool.and_eq_true]
            refine ⟨Hcopy it rest hPit hPrest ?_, hQ3⟩
            rw [hexp]
            exact hstep
          · rw [hexp, hkey, hskip, hrec, itemsChars_cons, hcds, List.cons_append]

/-! ## Per-pass step lemmas -/

theorem bind_ne_none {α β : Type} {o : Option α} {f : α → Option β}
    (h : o.bind f ≠ none) : o ≠ none := by
  intro hx
  rw [hx] at h
  exact h rfl

theorem matchCS_head_lt {pb : List Char} {c : Char} {cs : List Char}
    (h : matchLitCS ('<' :: pb) (c :: cs) ≠ none) : c = '<' := by
  rw [matchCS_cons] at h
  by_cases hc : ('<' == c) = true
  · exact (beq_iff_eq.mp hc).symm
  · rw [if_neg hc] at h
    exact absurd rfl h

theorem matchCI_head_lt {pb : List Char} {c : Char} {cs : List Char}
    (h : matchLitCI ('<' :: pb) (c :: cs) ≠ none) : c = '<' := by
  rw [matchCI_cons] at h
  by_cases hc : ('<'.toLower == c.toLower) = true
  · have h2 := beq_iff_eq.mp hc
    rw [show ('<' : Char).toLower = '<' from by decide] at h2
    exact toLower_eq_low (by decide) h2.symm
  · rw [if_neg hc] at h
    exact absurd rfl h

theorem ppOpenStep_head : ∀ c cs, ppOpenStep (c :: cs) ≠ none → scanHead c = true := by
  intro c cs h
  have h1 : matchLitCI "<p>".data (c :: cs) ≠ none := bind_ne_none h
  rw [matchCI_head_lt h1]
  decide

theorem ppCloseStep_head : ∀ c cs, ppCloseStep (c :: cs) ≠ none → scanHead c = true := by
  intro c cs h
  have h1 : matchLitCI "</p>".data (c :: cs) ≠ none := bind_ne_none h
  rw [matchCI_head_lt h1]
  decide

theorem pBrStep_head : ∀ c cs, pBrStep (c :: cs) ≠ none → scanHead c = true := by
  intro c cs h
  have h1 : matchLitCI "<p>".data (c :: cs) ≠ none := bind_ne_none h
  rw [matchCI_head_lt h1]
  decide

theorem emptyPairStep_head (tag : String) :
    ∀ c cs, emptyPairStep tag (c :: cs) ≠ none → scanHead c = true := by
  intro c cs h
  have h1 : matchLitCS (("<" ++ tag ++ ">").data) (c :: cs) ≠ none := bind_ne_none h
  have h2 : ("<" ++ tag ++ ">").data = '<' :: (tag.data ++ ['>']) := by
    simp [String.data_append]
  rw [h2] at h1
  rw [matchCS_head_lt h1]
  decide

theorem delPOpenStep_head : ∀ c cs, delPOpenStep (c :: cs) ≠ none → scanHead c = true := by
  intro c cs h
  have h1 : matchLitCI "<p>".data (c :: cs) ≠ none := by
    intro hx
    apply h
    unfold delPOpenStep
    rw [hx]
    rfl
  rw [matchCI_head_lt h1]
  decide

theorem pCloseToBrStep_head : ∀ c cs, pCloseToBrStep (c :: cs) ≠ none → scanHead c = true := by
  intro c cs h
  have h1 : matchLitCI "</p>".data (c :: cs) ≠ none := by
    intro hx
    apply h
    unfold pCloseToBrStep
    rw [hx]
    rfl
  rw [matchCI_head_lt h1]
  decide

theorem brNormStep_head : ∀ c cs, brNormStep (c :: cs) ≠ none → scanHead c = true := by
  intro c cs h
  have h1 : matchLitCI "<br".data (c :: cs) ≠ none := by
    intro hx
    apply h
    unfold brNormStep
    rw [hx]
  rw [matchCI_head_lt h1]
  decide

theorem bulletStep_none (c : Char) (cs : List Char) (hb : c ≠ '•')
    (hd : c.isDigit = false) : bulletStep (c :: cs) = none := by
  unfold bulletStep
  have hds : (c :: cs).takeWhile Char.isDigit = [] := by
    rw [List.takeWhile_cons, if_neg (by rw [hd]; simp)]
  split
  · rename_i r heq
    exfalso
    injection heq with h1 _
    exact hb h1
  · simp only [hds]
    rfl

theorem bulletStep_head : ∀ c cs, bulletStep (c :: cs) ≠ none → scanHead c = true := by
  intro c cs h
  by_cases hb : c = '•'
  · subst hb; decide
  · by_cases hd : c.isDigit = true
    · rw [scanHead, hd]
      simp
    · exact absurd (bulletStep_none c cs hb (Bool.not_eq_true _ ▸ hd)) h

/-- A single-tag replacement step characterized at an item boundary. -/
theorem oneTag_char {M : List Char → Option (List Char)} {pb : List Char}
    (h : BMatcher M pb) (rep0 : List Char) :
    ∀ it its, TagItem.wf it = true →
      (M (itemsChars (it :: its))).map (fun rest => (rep0, rest)) =
        if itemBody it = some pb then some (rep0, itemsChars its) else none := by
  intro it its hwf
  rw [h.2 it its hwf]
  by_cases hb : itemBody it = some pb
  · rw [if_pos hb, if_pos hb, Option.map_some']
  · rw [if_neg hb, if_neg hb, Option.map_none']

/-- A `<a>\s*<b>`-shaped replacement step consumes whole items and replaces
them by the given item list. -/
theorem twoTag_aligned {M1 M2 : List Char → Option (List Char)} {pb1 pb2 : List Char}
    (h1 : BMatcher M1 pb1) (h2 : BMatcher M2 pb2)
    {Q : TagItem → Bool} (rep0 : List Char) (reps0 : List TagItem)
    (hrep : rep0 = itemsChars reps0) (hq : reps0.all Q = true) :
    StepAligned Q (fun l => (M1 l).bind fun r1 =>
      (M2 (dropWS r1)).map fun rest => (rep0, rest)) := by
  intro it its hwf hall rep rst hstep
  simp only at hstep
  rw [h1.2 it its hwf] at hstep
  by_cases hb1 : itemBody it = some pb1
  · rw [if_pos hb1, Option.some_bind] at hstep
    obtain ⟨its2, hsuf2, hdw⟩ := dropWS_items its
    rw [hdw] at hstep
    cases its2 with
    | nil =>
      rw [itemsChars_nil, h2.1, Option.map_none'] at hstep
      exact absurd hstep (by simp)
    | cons it2 its3 =>
      have hwf2 : TagItem.wf it2 = true ∧ its3.all TagItem.wf = true := by
        have hx := all_of_suffix hall hsuf2
        rw [List.all_cons, Bool.and_eq_true] at hx
        exact hx
      rw [h2.2 it2 its3 hwf2.1] at hstep
      by_cases hb2 : itemBody it2 = some pb2
      · rw [if_pos hb2, Option.map_some', Option.some.injEq, Prod.mk.injEq] at hstep
        obtain ⟨hra, hrb⟩ := hstep
        refine ⟨reps0, its3, hq, by rw [← hra, hrep], ?_, hrb.symm⟩
        exact List.IsSuffix.trans ⟨[it2], rfl⟩ hsuf2
      · rw [if_neg hb2, Option.map_none'] at hstep
        exact absurd hstep (by simp)
  · rw [if_neg hb1, Option.none_bind] at hstep
    exact absurd hstep (by simp)

/-- A single-tag replacement step consumes one item and replaces it by the
given item list. -/
theorem oneTag_aligned {M : List Char → Option (List Char)} {pb : List Char}
    (h : BMatcher M pb)
    {Q : TagItem → Bool} (rep0 : List Char) (reps0 : List TagItem)
    (hrep : rep0 = itemsChars reps0) (hq : reps0.all Q = true) :
    StepAligned Q (fun l => (M l).map fun rest => (rep0, rest)) := by
  intro it its hwf hall rep rst hstep
  simp only at hstep
  rw [oneTag_char h rep0 it its hwf] at hstep
  by_cases hb : itemBody it = some pb
  · rw [if_pos hb, Option.some.injEq, Prod.mk.injEq] at hstep
    obtain ⟨hra, hrb⟩ := hstep
    exact ⟨reps0, its, hq, by rw [← hra, hrep], List.suffix_refl its, hrb.symm⟩
  · rw [if_neg hb] at hstep
    exact absurd hstep (by simp)

theorem ppOpenStep_aligned : StepAligned TagItem.wf ppOpenStep :=
  twoTag_aligned (bmatcher_CI ['p'] (by decide) (by decide))
    (bmatcher_CI ['p'] (by decide) (by decide))
    "<p>".data [.stag "p"] rfl (by decide)

theorem ppCloseStep_aligned : StepAligned TagItem.wf ppCloseStep :=
  twoTag_aligned (bmatcher_CI ['/', 'p'] (by decide) (by decide))
    (bmatcher_CI ['/', 'p'] (by decide) (by decide))
    "</p>".data [.etag "p"] rfl (by decide)

theorem pBrStep_aligned : StepAligned TagItem.wf pBrStep :=
  twoTag_aligned (bmatcher_CI ['p'] (by decide) (by decide))
    (bmatcher_CI ['b', 'r'] (by decide) (by decide))
    "<p>".data [.stag "p"] rfl (by decide)

theorem delPOpenStep_aligned : StepAligned TagItem.wfNoP delPOpenStep :=
  oneTag_aligned (bmatcher_CI ['p'] (by decide) (by decide)) [] [] rfl rfl

theorem pCloseToBrStep_aligned : StepAligned TagItem.wfNoP pCloseToBrStep :=
  oneTag_aligned (bmatcher_CI ['/', 'p'] (by decide) (by decide))
    "<br><br>".data [.stag "br", .stag "br"] rfl (by decide)

theorem emptyPairStep_aligned (tag : String)
    (h1 : ∀ c ∈ tag.data, (c == '>') = false) :
    StepAligned TagItem.wfNoP (emptyPairStep tag) :=
  twoTag_aligned (bmatcher_CS tag.data h1)
    (bmatcher_CS ('/' :: tag.data) (by
      intro c hc
      rcases List.mem_cons.mp hc with h | h
      · subst h; decide
      · exact h1 c h))
    [] [] rfl rfl

theorem brNormStep_boundary (it : TagItem) (its : List TagItem)
    (hwf : TagItem.wf it = true) :
    brNormStep (itemsChars (it :: its)) =
      if itemBody it = some ['b', 'r'] then some ("<br>".data, itemsChars its)
      else none := by
  cases it with
  | chr c =>
    have h2 : ¬ (itemBody (TagItem.chr c) = some ['b', 'r']) := by simp [itemBody]
    rw [if_neg h2, itemsChars_chr]
    have h1 : matchLitCI "<br".data (c :: itemsChars its) = none := by
      rw [show ("<br".data : List Char) = '<' :: ['b', 'r'] from rfl, matchCI_cons,
        if_neg (by
          simp only [beq_iff_eq, show ('<' : Char).toLower = '<' from by decide]
          intro h
          exact wf_chr_ne_lt hwf (toLower_eq_low (by decide) h.symm))]
    unfold brNormStep
    rw [h1]
  | stag t =>
    have ht := contains_allowed hwf
    rw [itemsChars_stag]
    fin_cases ht
    case «0» => rw [if_neg (by simp [itemBody])]; rfl
    case «1» => rw [if_neg (by simp [itemBody])]; rfl
    case «2» => rw [if_neg (by simp [itemBody])]; rfl
    case «3» => rw [if_neg (by simp [itemBody])]; rfl
    case «4» => rw [if_neg (by simp [itemBody])]; rfl
    case «5» => rw [if_neg (by simp [itemBody])]; rfl
    case «6» => rw [if_pos (by simp [itemBody])]; rfl
    case «7» => rw [if_neg (by simp [itemBody])]; rfl
    case «8» => rw [if_neg (by simp [itemBody])]; rfl
    case «9» => rw [if_neg (by simp [itemBody])]; rfl
  | etag t =>
    have h2 : ¬ (itemBody (TagItem.etag t) = some ['b', 'r']) := by
      simp [itemBody]
    rw [if_neg h2, itemsChars_etag]
    have h1 : matchLitCI "<br".data
        ('<' :: (('/' :: t.data) ++ '>' :: itemsChars its)) = none := rfl
    unfold brNormStep
    rw [h1]

theorem brNormStep_aligned : StepAligned TagItem.wfNoP brNormStep := by
  intro it its hwf hall rep rst hstep
  rw [brNormStep_boundary it its hwf] at hstep
  by_cases hb : itemBody it = some ['b', 'r']
  · rw [if_pos hb, Option.some.injEq, Prod.mk.injEq] at hstep
    obtain ⟨hra, hrb⟩ := hstep
    exact ⟨[.stag "br"], its, by decide, by rw [← hra]; rfl,
      List.suffix_refl its, hrb.symm⟩
  · rw [if_neg hb] at hstep
    exact absurd hstep (by simp)

theorem bulletStep_bullet (r : List Char) :
    bulletStep ('•' :: r) =
      match matchLitCS "<br>".data (dropWS r) with
      | some rest => some (['•', ' '], rest)
      | none => none := rfl

theorem bulletStep_digit (c : Char) (cs : List Char) (hb : c ≠ '•')
    (hd : c.isDigit = true) :
    bulletStep (c :: cs) =
      (match (c :: cs).drop ((c :: cs).takeWhile Char.isDigit).length with
       | '.' :: r =>
         (match matchLitCS "<br>".data (dropWS r) with
          | some rest => some ((c :: cs).takeWhile Char.isDigit ++ ['.', ' '], rest)
          | none => none)
       | _ => none) := by
  unfold bulletStep
  split
  · rename_i r heq
    exfalso
    injection heq with h1 _
    exact hb h1
  · have hne : ((c :: cs).takeWhile Char.isDigit).isEmpty = false := by
      rw [List.takeWhile_cons, if_pos (by rw [hd])]
      rfl
    rw [if_neg (by rw [hne]; simp)]
    split
    · rename_i r heq
      cases hm : matchLitCS "<br>".data (dropWS r) with
      | some rest => simp [hm, List.append_assoc]
      | none => simp [hm]
    · rfl

theorem drop_length_takeWhile (p : Char → Bool) (l : List Char) :
    l.drop (l.takeWhile p).length = l.dropWhile p := by
  nth_rewrite 2 [← List.takeWhile_append_dropWhile p l]
  exact List.drop_left _ _

theorem digit_chr_wfNoP {c : Char} (h : c.isDigit = true) :
    TagItem.wfNoP (.chr c) = true := by
  have h1 : (c == '<') = false := by
    rw [beq_eq_false_iff_ne]
    intro hx
    rw [hx] at h
    exact absurd h (by decide)
  have h2 : (c == '>') = false := by
    rw [beq_eq_false_iff_ne]
    intro hx
    rw [hx] at h
    exact absurd h (by decide)
  simp [TagItem.wfNoP, TagItem.wf, TagItem.isP, h1, h2]

/-- The bullet-fix pass `(•|\d+\.)\s*<br>` → `'$1 '` consumes whole items
(bullet/digit/dot/space characters and a `<br>` tag) and replaces them by
character items. -/
theorem bulletStep_aligned : StepAligned TagItem.wfNoP bulletStep := by
  intro it its hwf hall rep rst hstep
  obtain ⟨c, cs0, hcds⟩ : ∃ c cs0, itemsChars (it :: its) = c :: cs0 := by
    obtain ⟨c, ds, h⟩ := chars_cons it
    exact ⟨c, ds ++ itemsChars its, by rw [itemsChars_cons, h, List.cons_append]⟩
  have hallc : (it :: its).all TagItem.wf = true := by
    rw [List.all_cons, Bool.and_eq_true]
    exact ⟨hwf, hall⟩
  rw [hcds] at hstep
  by_cases hb : c = '•'
  · subst hb
    obtain ⟨its2, hit, hrest⟩ := items_head_chr hcds (by decide)
    injection hit with hit1 hit2
    subst hit2
    rw [bulletStep_bullet, hrest] at hstep
    obtain ⟨its3, hsuf3, hdw⟩ := dropWS_items its
    rw [hdw] at hstep
    cases its3 with
    | nil =>
      rw [itemsChars_nil,
        show matchLitCS "<br>".data ([] : List Char) = none from rfl] at hstep
      exact absurd hstep (by simp)
    | cons it3 its4 =>
      have hwf34 : TagItem.wf it3 = true ∧ its4.all TagItem.wf = true := by
        have hx := all_of_suffix hall hsuf3
        rw [List.all_cons, Bool.and_eq_true] at hx
        exact hx
      rw [show ("<br>".data : List Char) = '<' :: (['b', 'r'] ++ ['>']) from rfl,
        (bmatcher_CS ['b', 'r'] (by decide)).2 it3 its4 hwf34.1] at hstep
      by_cases hb3 : itemBody it3 = some ['b', 'r']
      · rw [if_pos hb3] at hstep
        have hstep2 : some ((['•', ' '] : List Char), itemsChars its4) =
            some (rep, rst) := hstep
        rw [Option.some.injEq, Prod.mk.injEq] at hstep2
        obtain ⟨hra, hrb⟩ := hstep2
        refine ⟨[.chr '•', .chr ' '], its4, by decide, by rw [← hra]; rfl, ?_, hrb.symm⟩
        exact List.IsSuffix.trans ⟨[it3], rfl⟩ hsuf3
      · rw [if_neg hb3] at hstep
        exact absurd hstep (by simp)
  · by_cases hd : c.isDigit = true
    · rw [bulletStep_digit c cs0 hb hd, ← hcds] at hstep
      obtain ⟨pre, its2, hdec, hpre, htk, hdr⟩ :=
        dropWhile_items Char.isDigit (by decide) (it :: its)
      rw [drop_length_takeWhile, hdr] at hstep
      have hpre_ne : pre ≠ [] := by
        intro hx
        rw [hx, itemsChars_nil, hcds, List.takeWhile_cons, if_pos hd] at htk
        exact absurd htk (by simp)
      have hsuf2 : its2 <:+ its := by
        obtain ⟨p0, pre2, hp⟩ : ∃ p0 pre2, pre = p0 :: pre2 := by
          cases pre with
          | nil => exact absurd rfl hpre_ne
          | cons p0 pre2 => exact ⟨p0, pre2, rfl⟩
        rw [hp, List.cons_append] at hdec
        injection hdec with _ h2
        exact ⟨pre2, h2.symm⟩
      split at hstep
      · rename_i r heq
        obtain ⟨its3, hit3, hr3⟩ := items_head_chr heq (by decide)
        obtain ⟨its4, hsuf4, hdw4⟩ := dropWS_items its3
        rw [hr3, hdw4] at hstep
        cases its4 with
        | nil =>
          rw [itemsChars_nil,
            show matchLitCS "<br>".data ([] : List Char) = none from rfl] at hstep
          exact absurd hstep (by simp)
        | cons it5 its5 =>
          have hall2 : its2.all TagItem.wf = true := all_of_suffix hall hsuf2
          have hall3 : its3.all TagItem.wf = true := by
            have hx : its2.all TagItem.wf = true := hall2
            rw [hit3, List.all_cons, Bool.and_eq_true] at hx
            exact hx.2
          have hwf55 : TagItem.wf it5 = true ∧ its5.all TagItem.wf = true := by
            have hx := all_of_suffix hall3 hsuf4
            rw [List.all_cons, Bool.and_eq_true] at hx
            exact hx
          rw [show ("<br>".data : List Char) = '<' :: (['b', 'r'] ++ ['>']) from rfl,
            (bmatcher_CS ['b', 'r'] (by decide)).2 it5 its5 hwf55.1] at hstep
          by_cases hb5 : itemBody it5 = some ['b', 'r']
          · rw [if_pos hb5] at hstep
            have hstep2 : some ((itemsChars (it :: its)).takeWhile Char.isDigit
                  ++ ['.', ' '], itemsChars its5) = some (rep, rst) := hstep
            rw [Option.some.injEq, Prod.mk.injEq] at hstep2
            obtain ⟨hra, hrb⟩ := hstep2
            refine ⟨pre ++ [.chr '.', .chr ' '], its5, ?_, ?_, ?_, hrb.symm⟩
            · rw [List.all_append, Bool.and_eq_true]
              refine ⟨?_, by decide⟩
              rw [List.all_eq_true]
              intro x hx
              obtain ⟨d, hxd, hdd⟩ := hpre x hx
              rw [hxd]
              exact digit_chr_wfNoP hdd
            · rw [← hra, htk, itemsChars_append]
              rfl
            · refine List.IsSuffix.trans ⟨[it5], rfl⟩ ?_
              refine List.IsSuffix.trans hsuf4 ?_
              refine List.IsSuffix.trans ⟨[.chr '.'], hit3.symm⟩ hsuf2
          · rw [if_neg hb5] at hstep
            exact absurd hstep (by simp)
      · exact absurd hstep (by simp)
    · rw [bulletStep_none c cs0 hb (Bool.not_eq_true _ ▸ hd)] at hstep
      exact absurd hstep (by simp)

theorem delPOpenStep_boundary (it : TagItem) (its : List TagItem)
    (hwf : TagItem.wf it = true) :
    delPOpenStep (itemsChars (it :: its)) =
      if itemBody it = some ['p'] then some ([], itemsChars its) else none :=
  oneTag_char (bmatcher_CI ['p'] (by decide) (by decide)) [] it its hwf

theorem pCloseToBrStep_boundary (it : TagItem) (its : List TagItem)
    (hwf : TagItem.wf it = true) :
    pCloseToBrStep (itemsChars (it :: its)) =
      if itemBody it = some ['/', 'p'] then some ("<br><br>".data, itemsChars its)
      else none :=
  oneTag_char (bmatcher_CI ['/', 'p'] (by decide) (by decide)) "<br><br>".data it its hwf

/-- An item copied without a match by the `<p>`-removal pass is not an
opening `p` tag: the pass matches at every opening `p` boundary. -/
theorem delPOpen_copy : ∀ it its, TagItem.wf it = true →
    its.all TagItem.wf = true →
    delPOpenStep (itemsChars (it :: its)) = none → TagItem.wfNoOpenP it = true := by
  intro it its hwf hall hnone
  rw [delPOpenStep_boundary it its hwf] at hnone
  by_cases hb : itemBody it = some ['p']
  · rw [if_pos hb] at hnone
    exact absurd hnone (by simp)
  · rw [TagItem.wfNoOpenP, Bool.and_eq_true]
    refine ⟨hwf, ?_⟩
    cases it with
    | chr c => rfl
    | stag t =>
      simp only [TagItem.openP, Bool.not_eq_true']
      rw [beq_eq_false_iff_ne]
      intro hx
      apply hb
      rw [hx]
      rfl
    | etag t => rfl

/-- An item copied without a match by the `</p>`-to-break pass is not a
closing `p` tag. -/
theorem pCloseToBr_copy : ∀ it its, TagItem.wfNoOpenP it = true →
    its.all TagItem.wfNoOpenP = true →
    pCloseToBrStep (itemsChars (it :: its)) = none → TagItem.wfNoP it = true := by
  intro it its hP hall hnone
  have hwf := wfNoOpenP_wf hP
  rw [pCloseToBrStep_boundary it its hwf] at hnone
  by_cases hb : itemBody it = some ['/', 'p']
  · rw [if_pos hb] at hnone
    exact absurd hnone (by simp)
  · rw [TagItem.wfNoP, Bool.and_eq_true]
    refine ⟨hwf, ?_⟩
    cases it with
    | chr c => rfl
    | stag t =>
      rw [TagItem.wfNoOpenP, Bool.and_eq_true] at hP
      exact hP.2
    | etag t =>
      simp only [TagItem.isP, Bool.not_eq_true']
      rw [beq_eq_false_iff_ne]
      intro hx
      apply hb
      rw [hx]
      rfl

/-- The replace driver at the string level. -/
theorem runRepl_items {P Q Qr : TagItem → Bool}
    {step : List Char → Option (List Char × List Char)}
    (HPwf : ∀ it, P it = true → TagItem.wf it = true)
    (HQr : ∀ it, Qr it = true → Q it = true)
    (Hhead : ∀ c cs, step (c :: cs) ≠ none → scanHead c = true)
    (Halign : StepAligned Qr step)
    (Hcopy : ∀ it its, P it = true → its.all P = true →
      step (itemsChars (it :: its)) = none → Q it = true)
    {s : String} (h : ItemsOf P s) : ItemsOf Q (runRepl step s) := by
  obtain ⟨its, hall, hchars⟩ := h
  obtain ⟨its2, hQ, heq⟩ := replFuel_items step P Q Qr HPwf HQr Hhead Halign Hcopy
    its.length its s.data.length (Nat.le_refl _) hall
    (by rw [hchars])
  refine ⟨its2, hQ, ?_⟩
  show replFuel step s.data.length s.data = itemsChars its2
  nth_rewrite 2 [hchars]
  exact heq

/-! ## The serializer output is an item string -/

theorem strData_append (a b : String) : (a ++ b).data = a.data ++ b.data := rfl

mutual

theorem nodeSerializeItems_chars : (n : HNode) →
    itemsChars n.serializeItems = n.serialize.data
  | .text s => by
    rw [HNode.serializeItems, HNode.serialize, itemsChars_map_chr]
    rfl
  | .elem t a kids => by
    rw [HNode.serializeItems, HNode.serialize]
    by_cases hbr : (t == "br") = true
    · rw [if_pos hbr, if_pos hbr]
      rfl
    · rw [if_neg hbr, if_neg hbr, itemsChars_cons, itemsChars_append,
        forestSerializeItems_chars kids]
      simp [TagItem.chars, strData_append, itemsChars_cons, itemsChars_nil]

theorem forestSerializeItems_chars : (f : HForest) →
    itemsChars f.serializeItems = f.serialize.data
  | .nil => rfl
  | .cons n f => by
    rw [HForest.serializeItems, HForest.serialize, itemsChars_append,
      nodeSerializeItems_chars n, forestSerializeItems_chars f, strData_append]

end

theorem escapeChar_wf : ∀ c d, d ∈ escapeChar c → TagItem.wf (.chr d) = true := by
  intro c d hd
  unfold escapeChar at hd
  split at hd
  · fin_cases hd <;> decide
  · split at hd
    · fin_cases hd <;> decide
    · split at hd
      · fin_cases hd <;> decide
      · split at hd
        · fin_cases hd <;> decide
        · rw [List.mem_singleton] at hd
          subst hd
          rename_i h1 h2 h3 _
          simp only [TagItem.wf, Bool.and_eq_true, Bool.not_eq_true']
          exact ⟨by simpa using h2, by simpa using h3⟩

theorem all_wf_map_chr {l : List Char}
    (h : ∀ d ∈ l, TagItem.wf (.chr d) = true) :
    (l.map TagItem.chr).all TagItem.wf = true := by
  rw [List.all_eq_true]
  intro x hx
  obtain ⟨d, hdl, hdx⟩ := List.mem_map.mp hx
  rw [← hdx]
  exact h d hdl

mutual

theorem nodeSerializeItems_wf : (n : HNode) → n.ok = true →
    (n.serializeItems).all TagItem.wf = true
  | .text s, _ => by
    rw [HNode.serializeItems]
    refine all_wf_map_chr ?_
    intro d hd
    obtain ⟨sub, hsub, hdsub⟩ := List.mem_flatten.mp hd
    obtain ⟨c, _, hcsub⟩ := List.mem_map.mp hsub
    rw [← hcsub] at hdsub
    exact escapeChar_wf c d hdsub
  | .elem t a kids, hok => by
    rw [HNode.ok, Bool.and_eq_true, Bool.and_eq_true] at hok
    rw [HNode.serializeItems]
    by_cases hbr : (t == "br") = true
    · rw [if_pos hbr]
      decide
    · rw [if_neg hbr, List.all_cons, Bool.and_eq_true, List.all_append,
        Bool.and_eq_true]
      exact ⟨hok.1.1, forestSerializeItems_wf kids hok.2, by
        rw [List.all_cons]
        simp only [List.all_nil, Bool.and_true]
        exact hok.1.1⟩

theorem forestSerializeItems_wf : (f : HForest) → f.ok = true →
    (f.serializeItems).all TagItem.wf = true
  | .nil, _ => rfl
  | .cons n f, hok => by
    rw [HForest.ok, Bool.and_eq_true] at hok
    rw [HForest.serializeItems, List.all_append, Bool.and_eq_true]
    exact ⟨nodeSerializeItems_wf n hok.1, forestSerializeItems_wf f hok.2⟩

end

mutual

theorem nodeSerializeItems_wfNoP : (n : HNode) → n.ok = true → n.noP = true →
    (n.serializeItems).all TagItem.wfNoP = true
  | .text s, hok, _ => by
    have h := nodeSerializeItems_wf (.text s) hok
    rw [HNode.serializeItems] at h ⊢
    rw [List.all_eq_true] at h ⊢
    intro x hx
    obtain ⟨d, _, hdx⟩ := List.mem_map.mp hx
    rw [TagItem.wfNoP, Bool.and_eq_true]
    refine ⟨h x hx, ?_⟩
    rw [← hdx]
    rfl
  | .elem t a kids, hok, hnp => by
    rw [HNode.ok, Bool.and_eq_true, Bool.and_eq_true] at hok
    rw [HNode.noP, Bool.and_eq_true] at hnp
    rw [HNode.serializeItems]
    by_cases hbr : (t == "br") = true
    · rw [if_pos hbr]
      decide
    · rw [if_neg hbr, List.all_cons, Bool.and_eq_true, List.all_append,
        Bool.and_eq_true]
      refine ⟨?_, forestSerializeItems_wfNoP kids hok.2 hnp.2, ?_⟩
      · rw [TagItem.wfNoP, Bool.and_eq_true]
        exact ⟨hok.1.1, by simpa [TagItem.isP] using hnp.1⟩
      · rw [List.all_cons]
        simp only [List.all_nil, Bool.and_true]
        rw [TagItem.wfNoP, Bool.and_eq_true]
        exact ⟨hok.1.1, by simpa [TagItem.isP] using hnp.1⟩

theorem forestSerializeItems_wfNoP : (f : HForest) → f.ok = true → f.noP = true →
    (f.serializeItems).all TagItem.wfNoP = true
  | .nil, _, _ => rfl
  | .cons n f, hok, hnp => by
    rw [HForest.ok, Bool.and_eq_true] at hok
    rw [HForest.noP, Bool.and_eq_true] at hnp
    rw [HForest.serializeItems, List.all_append, Bool.and_eq_true]
    exact ⟨nodeSerializeItems_wfNoP n hok.1 hnp.1,
      forestSerializeItems_wfNoP f hok.2 hnp.2⟩

end

theorem serialize_items_wf {f : HForest} (h : f.ok = true) :
    ItemsOf TagItem.wf (HForest.serialize f) :=
  ⟨f.serializeItems, forestSerializeItems_wf f h,
    (forestSerializeItems_chars f).symm⟩

theorem serialize_items_wfNoP {f : HForest} (hok : f.ok = true)
    (hnp : f.noP = true) : ItemsOf TagItem.wfNoP (HForest.serialize f) :=
  ⟨f.serializeItems, forestSerializeItems_wfNoP f hok hnp,
    (forestSerializeItems_chars f).symm⟩

/-! ## Edge cleanup preserves item decomposition -/

theorem dropWhileEnd_items (p : Char → Bool) (hgt : p '>' = false) :
    ∀ its : List TagItem,
      ∃ its2, (∀ x ∈ its2, x ∈ its) ∧
        ((itemsChars its).reverse.dropWhile p).reverse = itemsChars its2 := by
  intro its
  induction its using List.reverseRecOn with
  | nil => exact ⟨[], by simp, by simp [itemsChars_nil]⟩
  | append_singleton init it IH =>
    cases it with
    | chr c =>
      have hrev : (itemsChars (init ++ [TagItem.chr c])).reverse =
          c :: (itemsChars init).reverse := by
        rw [itemsChars_append, List.reverse_append,
          show itemsChars [TagItem.chr c] = [c] from rfl]
        rfl
      by_cases hc : p c = true
      · obtain ⟨its2, hsub, heq⟩ := IH
        refine ⟨its2, ?_, ?_⟩
        · intro x hx
          exact List.mem_append.mpr (Or.inl (hsub x hx))
        · rw [hrev, List.dropWhile_cons, if_pos hc, heq]
      · refine ⟨init ++ [TagItem.chr c], fun x hx => hx, ?_⟩
        rw [hrev, List.dropWhile_cons, if_neg hc, ← hrev, List.reverse_reverse]
    | stag t =>
      refine ⟨init ++ [TagItem.stag t], fun x hx => hx, ?_⟩
      have hrev : (itemsChars (init ++ [TagItem.stag t])).reverse =
          '>' :: (t.data.reverse ++ ('<' :: (itemsChars init).reverse)) := by
        rw [itemsChars_append, List.reverse_append, itemsChars_stag, itemsChars_nil]
        simp
      rw [hrev, List.dropWhile_cons, if_neg (by rw [hgt]; simp), ← hrev,
        List.reverse_reverse]
    | etag t =>
      refine ⟨init ++ [TagItem.etag t], fun x hx => hx, ?_⟩
      have hrev : (itemsChars (init ++ [TagItem.etag t])).reverse =
          '>' :: (t.data.reverse ++ ('/' :: '<' :: (itemsChars init).reverse)) := by
        rw [itemsChars_append, List.reverse_append, itemsChars_etag, itemsChars_nil]
        simp
      rw [hrev, List.dropWhile_cons, if_neg (by rw [hgt]; simp), ← hrev,
        List.reverse_reverse]

theorem trimChars_items {P : TagItem → Bool} {its : List TagItem}
    (hall : its.all P = true) :
    ∃ its2, its2.all P = true ∧ trimChars (itemsChars its) = itemsChars its2 := by
  obtain ⟨pre, itsA, hdecA, _, _, hdrA⟩ := dropWhile_items isJsSpace (by decide) its
  obtain ⟨itsB, hsubB, heqB⟩ := dropWhileEnd_items isJsSpace (by decide) itsA
  refine ⟨itsB, ?_, ?_⟩
  · rw [List.all_eq_true] at hall ⊢
    intro x hx
    refine hall x ?_
    rw [hdecA]
    exact List.mem_append.mpr (Or.inr (hsubB x hx))
  · rw [trimChars, hdrA, heqB]

theorem jsTrim_items {P : TagItem → Bool} {s : String} (h : ItemsOf P s) :
    ItemsOf P (jsTrim s) := by
  obtain ⟨its, hall, hchars⟩ := h
  obtain ⟨its2, h2, heq⟩ := trimChars_items hall
  refine ⟨its2, h2, ?_⟩
  show trimChars s.data = itemsChars its2
  rw [hchars, heq]

theorem stripLead_stop {l : List Char}
    (h : ∀ rest, l ≠ '<' :: 'b' :: 'r' :: '>' :: rest) :
    stripLeadBrsChars l = l := by
  unfold stripLeadBrsChars
  split
  · rename_i rest
    exact absurd rfl (h rest)
  · rfl

theorem stripTrail_stop {l : List Char}
    (h : ∀ rest, l ≠ '>' :: 'r' :: 'b' :: '<' :: rest) :
    stripTrailBrsCharsRev l = l := by
  unfold stripTrailBrsCharsRev
  split
  · rename_i rest
    exact absurd rfl (h rest)
  · rfl

theorem stripLeadBrs_items_aux : ∀ its : List TagItem, its.all TagItem.wf = true →
    ∃ its2, its2 <:+ its ∧ stripLeadBrsChars (itemsChars its) = itemsChars its2 := by
  intro its
  induction its with
  | nil =>
    intro _
    exact ⟨[], List.suffix_refl _, by rw [itemsChars_nil]; rfl⟩
  | cons it rest IH =>
    intro hall
    rw [List.all_cons, Bool.and_eq_true] at hall
    cases it with
    | chr c =>
      refine ⟨.chr c :: rest, List.suffix_refl _, ?_⟩
      rw [itemsChars_chr]
      refine stripLead_stop ?_
      intro r h
      injection h with h1 _
      exact wf_chr_ne_lt hall.1 h1
    | stag t =>
      have ht := contains_allowed hall.1
      fin_cases ht
      case «6» =>
        obtain ⟨its2, hsuf, heq⟩ := IH hall.2
        refine ⟨its2, List.IsSuffix.trans hsuf ⟨[TagItem.stag "br"], rfl⟩, ?_⟩
        rw [itemsChars_stag]
        show stripLeadBrsChars (itemsChars rest) = itemsChars its2
        exact heq
      all_goals
        refine ⟨_, List.suffix_refl _, ?_⟩
      all_goals
        rw [itemsChars_stag]
      all_goals
        refine stripLead_stop ?_
      all_goals
        intro r h
      all_goals
        simp at h
    | etag t =>
      refine ⟨.etag t :: rest, List.suffix_refl _, ?_⟩
      rw [itemsChars_etag]
      refine stripLead_stop ?_
      intro r h
      simp at h

theorem stripTrailBrs_items_aux : ∀ its : List TagItem, its.all TagItem.wf = true →
    ∃ its2, (∀ x ∈ its2, x ∈ its) ∧
      (stripTrailBrsCharsRev (itemsChars its).reverse).reverse = itemsChars its2 := by
  intro its
  induction its using List.reverseRecOn with
  | nil =>
    intro _
    exact ⟨[], by simp, by simp [itemsChars_nil]; rfl⟩
  | append_singleton init it IH =>
    intro hall
    rw [List.all_append, Bool.and_eq_true] at hall
    cases it with
    | chr c =>
      have hc : TagItem.wf (.chr c) = true := by
        have hx := hall.2
        rw [List.all_cons, Bool.and_eq_true] at hx
        exact hx.1
      have hrev : (itemsChars (init ++ [TagItem.chr c])).reverse =
          c :: (itemsChars init).reverse := by
        rw [itemsChars_append, List.reverse_append,
          show itemsChars [TagItem.chr c] = [c] from rfl]
        rfl
      refine ⟨init ++ [TagItem.chr c], fun x hx => hx, ?_⟩
      rw [hrev]
      rw [stripTrail_stop (by
        intro r h
        injection h with h1 _
        exact wf_chr_ne_gt hc h1), ← hrev, List.reverse_reverse]
    | stag t =>
      have ht : t ∈ ALLOWED_TAGS := by
        have hx := hall.2
        rw [List.all_cons, Bool.and_eq_true] at hx
        exact contains_allowed hx.1
      have hrev : (itemsChars (init ++ [TagItem.stag t])).reverse =
          ('>' :: t.data.reverse) ++ ('<' :: (itemsChars init).reverse) := by
        rw [itemsChars_append, List.reverse_append, itemsChars_stag, itemsChars_nil]
        simp
      fin_cases ht
      case «6» =>
        obtain ⟨its2, hsub, heq⟩ := IH hall.1
        refine ⟨its2, ?_, ?_⟩
        · intro x hx
          exact List.mem_append.mpr (Or.inl (hsub x hx))
        · rw [hrev]
          show (stripTrailBrsCharsRev ((itemsChars init).reverse)).reverse = itemsChars its2
          exact heq
      all_goals
        refine ⟨_, fun x hx => hx, ?_⟩
      all_goals
        rw [hrev]
      all_goals
        rw [stripTrail_stop (by intro r h; simp at h), ← hrev, List.reverse_reverse]
    | etag t =>
      have ht : t ∈ ALLOWED_TAGS := by
        have hx := hall.2
        rw [List.all_cons, Bool.and_eq_true] at hx
        exact contains_allowed hx.1
      have hrev : (itemsChars (init ++ [TagItem.etag t])).reverse =
          ('>' :: t.data.reverse) ++ ('/' :: '<' :: (itemsChars init).reverse) := by
        rw [itemsChars_append, List.reverse_append, itemsChars_etag, itemsChars_nil]
        simp
      refine ⟨init ++ [TagItem.etag t], fun x hx => hx, ?_⟩
      rw [hrev]
      fin_cases ht
      all_goals
        rw [stripTrail_stop (by intro r h; simp at h), ← hrev, List.reverse_reverse]

theorem stripLeadBrs_items {P : TagItem → Bool}
    (HPwf : ∀ it, P it = true → TagItem.wf it = true)
    {s : String} (h : ItemsOf P s) : ItemsOf P (stripLeadBrs s) := by
  obtain ⟨its, hall, hchars⟩ := h
  obtain ⟨its2, hsuf, heq⟩ := stripLeadBrs_items_aux its (all_mono HPwf hall)
  refine ⟨its2, all_of_suffix hall hsuf, ?_⟩
  show stripLeadBrsChars s.data = itemsChars its2
  rw [hchars, heq]

theorem stripTrailBrs_items {P : TagItem → Bool}
    (HPwf : ∀ it, P it = true → TagItem.wf it = true)
    {s : String} (h : ItemsOf P s) : ItemsOf P (stripTrailBrs s) := by
  obtain ⟨its, hall, hchars⟩ := h
  obtain ⟨its2, hsub, heq⟩ := stripTrailBrs_items_aux its (all_mono HPwf hall)
  refine ⟨its2, ?_, ?_⟩
  · rw [List.all_eq_true] at hall ⊢
    exact fun x hx => hall x (hsub x hx)
  · show (stripTrailBrsCharsRev s.data.reverse).reverse = itemsChars its2
    rw [hchars, heq]

/-- The three final edge cleanups (trim, strip leading and trailing breaks)
preserve any item decomposition whose items are wellformed. -/
theorem edge_items {P : TagItem → Bool}
    (HPwf : ∀ it, P it = true → TagItem.wf it = true)
    {s : String} (h : ItemsOf P s) :
    ItemsOf P (stripTrailBrs (stripLeadBrs (jsTrim s))) :=
  stripTrailBrs_items HPwf (stripLeadBrs_items HPwf (jsTrim_items h))

theorem flatten_map_nl {l : List Char} (h : ∀ c ∈ l, (c == '\n') = false) :
    (l.map fun c => if c == '\n' then "<br>".data else [c]).flatten = l := by
  induction l with
  | nil => rfl
  | cons c cs IH =>
    rw [List.map_cons, List.flatten_cons, h c (List.mem_cons_self c cs)]
    rw [if_neg (by simp), List.singleton_append,
      IH (fun x hx => h x (List.mem_cons_of_mem c hx))]

/-- The plain-text pass `\n` → `<br>` maps item strings to item strings: tag
characters contain no newline, and each newline character item becomes a
`<br>` tag item. -/
theorem nlToBr_items {s : String} (h : ItemsOf TagItem.wf s) :
    ItemsOf TagItem.wf (nlToBr s) := by
  obtain ⟨its, hall, hchars⟩ := h
  suffices hsuff : ∀ its : List TagItem, its.all TagItem.wf = true →
      ∃ its2, its2.all TagItem.wf = true ∧
        ((itemsChars its).map fun c =>
          if c == '\n' then "<br>".data else [c]).flatten = itemsChars its2 by
    obtain ⟨its2, h2, heq⟩ := hsuff its hall
    refine ⟨its2, h2, ?_⟩
    show ((s.data.map fun c => if c == '\n' then "<br>".data else [c]).flatten) = _
    rw [hchars, heq]
  intro its
  induction its with
  | nil =>
    intro _
    exact ⟨[], rfl, by rw [itemsChars_nil]; rfl⟩
  | cons it rest IH =>
    intro hall2
    rw [List.all_cons, Bool.and_eq_true] at hall2
    obtain ⟨its2, h2, heq⟩ := IH hall2.2
    cases it with
    | chr c =>
      rw [itemsChars_chr]
      by_cases hc : (c == '\n') = true
      · refine ⟨.stag "br" :: its2, ?_, ?_⟩
        · rw [List.all_cons, Bool.and_eq_true]
          exact ⟨by decide, h2⟩
        · rw [List.map_cons, List.flatten_cons, hc, if_pos rfl, heq, itemsChars_stag]
          rfl
      · refine ⟨.chr c :: its2, ?_, ?_⟩
        · rw [List.all_cons, Bool.and_eq_true]
          exact ⟨hall2.1, h2⟩
        · rw [List.map_cons, List.flatten_cons, if_neg (by simp [hc]),
            List.singleton_append, heq, itemsChars_chr]
    | stag t =>
      have ht := contains_allowed hall2.1
      have hnl : ∀ c ∈ TagItem.chars (.stag t), (c == '\n') = false := by
        intro c hc
        simp only [TagItem.chars] at hc
        rcases List.mem_cons.mp hc with hx | hx
        · subst hx; decide
        · rcases List.mem_append.mp hx with hy | hy
          · rw [beq_eq_false_iff_ne]
            intro hz
            have := (allowed_tag_chars t ht c hy).2.2.2.1
            rw [hz] at this
            exact absurd this (by decide)
          · rw [List.mem_singleton] at hy
            subst hy
            decide
      refine ⟨.stag t :: its2, ?_, ?_⟩
      · rw [List.all_cons, Bool.and_eq_true]
        exact ⟨hall2.1, h2⟩
      · rw [itemsChars_cons, List.map_append, List.flatten_append,
          flatten_map_nl hnl, heq, itemsChars_cons]
    | etag t =>
      have ht := contains_allowed hall2.1
      have hnl : ∀ c ∈ TagItem.chars (.etag t), (c == '\n') = false := by
        intro c hc
        simp only [TagItem.chars] at hc
        rcases List.mem_cons.mp hc with hx | hx
        · subst hx; decide
        · rcases List.mem_cons.mp hx with hx2 | hx2
          · subst hx2; decide
          · rcases List.mem_append.mp hx2 with hy | hy
            · rw [beq_eq_false_iff_ne]
              intro hz
              have := (allowed_tag_chars t ht c hy).2.2.2.1
              rw [hz] at this
              exact absurd this (by decide)
            · rw [List.mem_singleton] at hy
              subst hy
              decide
      refine ⟨.etag t :: its2, ?_, ?_⟩
      · rw [List.all_cons, Bool.and_eq_true]
        exact ⟨hall2.1, h2⟩
      · rw [itemsChars_cons, List.map_append, List.flatten_append,
          flatten_map_nl hnl, heq, itemsChars_cons]

/-! ## Item decomposition of the two success outputs -/

/-- Self-preserving pass: matches replace whole items by items of the same
class, copies keep their items. -/
theorem pass_pres {P : TagItem → Bool} {step : List Char → Option (List Char × List Char)}
    (HPwf : ∀ it, P it = true → TagItem.wf it = true)
    (Hhead : ∀ c cs, step (c :: cs) ≠ none → scanHead c = true)
    {Qr : TagItem → Bool} (Halign : StepAligned Qr step)
    (HQr : ∀ it, Qr it = true → P it = true)
    {s : String} (h : ItemsOf P s) : ItemsOf P (runRepl step s) :=
  runRepl_items HPwf HQr Hhead Halign (fun _ _ hP _ _ => hP) h

/-- The `<p>`-removal pass of variant 2 (`/<p>/gi` → `''`, lines 507-508):
wellformed item strings map to wellformed item strings with no opening `p`
tag left, for every input. -/
theorem delPOpen_items {s : String} (h : ItemsOf TagItem.wf s) :
    ItemsOf TagItem.wfNoOpenP (runRepl delPOpenStep s) :=
  runRepl_items (fun _ h2 => h2) (fun _ h2 => wfNoP_wfNoOpenP h2) delPOpenStep_head
    delPOpenStep_aligned delPOpen_copy h

/-- The `</p>`-to-break pass of variant 2 (`/<\/p>/gi` → `<br><br>`, lines
509-510): item strings with no opening `p` map to item strings with no `p`
tag at all. -/
theorem pCloseToBr_items {s : String} (h : ItemsOf TagItem.wfNoOpenP s) :
    ItemsOf TagItem.wfNoP (runRepl pCloseToBrStep s) :=
  runRepl_items (fun _ => wfNoOpenP_wf) (fun _ h2 => h2) pCloseToBrStep_head
    pCloseToBrStep_aligned pCloseToBr_copy h

theorem V1.finalForest_ok (cfg : ConversionConfig) (body : HForest) :
    (V1.finalForest cfg body).ok = true := by
  unfold V1.finalForest
  have h1 := V1.cleanForest_ok _ (V1.processChildren_ok cfg body {})
  split
  · exact h1
  · exact V1.unwrapPForest_ok _ h1

theorem V1.finalForest_noPF (cfg : ConversionConfig) (body : HForest)
    (h : cfg.useParagraphs = false) : (V1.finalForest cfg body).noP = true := by
  unfold V1.finalForest
  rw [h]
  simp only [if_neg (show ¬(false = true) by decide)]
  exact V1.unwrapPForest_noP _

/-- Variant 1 success output, item-decomposed: serialization of an `ok` tree
followed by the edge cleanups. -/
theorem V1_html_items (raw : String) (body : HForest)
    (cfg : ConversionConfig) :
    ItemsOf TagItem.wf (V1.cleanHtml raw body false cfg).html :=
  edge_items (fun _ h => h) (serialize_items_wf (V1.finalForest_ok cfg body))

/-- Variant 1 success output with `useParagraphs` off: item-decomposed with
no `p` tag. -/
theorem V1_html_items_noP (raw : String) (body : HForest)
    (cfg : ConversionConfig) (h : cfg.useParagraphs = false) :
    ItemsOf TagItem.wfNoP (V1.cleanHtml raw body false cfg).html :=
  edge_items (fun _ => wfNoP_wf)
    (serialize_items_wfNoP (V1.finalForest_ok cfg body)
      (V1.finalForest_noPF cfg body h))

/-- Stages 0-5 of variant 2's cleanup chain (serialize, plain-text breaks,
`<br>` normalization, bullet fix, duplicate/`<p><br>` collapses) preserve the
wellformed item decomposition. -/
theorem V2_s5_items (cfg : ConversionConfig) (plain : Bool) (body : HForest) :
    ItemsOf TagItem.wf (runRepl pBrStep (runRepl ppCloseStep (runRepl ppOpenStep
      (runRepl bulletStep (runRepl brNormStep
        (if plain then nlToBr (HForest.serialize (V2.rewritten cfg plain body).frag)
         else HForest.serialize (V2.rewritten cfg plain body).frag)))))) := by
  have h0 : ItemsOf TagItem.wf (HForest.serialize (V2.rewritten cfg plain body).frag) :=
    serialize_items_wf (V2.processChildren_output_ok cfg plain body {} "body" 1)
  have h1 : ItemsOf TagItem.wf (if plain then nlToBr (HForest.serialize
      (V2.rewritten cfg plain body).frag)
      else HForest.serialize (V2.rewritten cfg plain body).frag) := by
    by_cases hp : plain = true
    · rw [if_pos hp]
      exact nlToBr_items h0
    · rw [if_neg hp]
      exact h0
  exact pass_pres (fun _ h => h) pBrStep_head pBrStep_aligned (fun _ h => h)
    (pass_pres (fun _ h => h) ppCloseStep_head ppCloseStep_aligned (fun _ h => h)
      (pass_pres (fun _ h => h) ppOpenStep_head ppOpenStep_aligned (fun _ h => h)
        (pass_pres (fun _ h => h) bulletStep_head bulletStep_aligned
          (fun _ h => wfNoP_wf h)
          (pass_pres (fun _ h => h) brNormStep_head brNormStep_aligned
            (fun _ h => wfNoP_wf h) h1))))

/-- Variant 2 success output, item-decomposed, for every parsed body,
configuration and raw input: every regex pass of lines 487-523 maps item
strings to item strings. -/
theorem V2_html_items (raw : String) (body : HForest)
    (cfg : ConversionConfig) :
    ItemsOf TagItem.wf (V2.cleanHtml raw body false cfg).html := by
  have h5 := V2_s5_items cfg
    (!(V2.blockInForest body) && !(trimChars (HForest.textContent body).data == [])) body
  refine edge_items (fun _ h => h) ?_
  refine pass_pres (fun _ h => h) (emptyPairStep_head "p")
    (emptyPairStep_aligned "p" (by decide)) (fun _ h => wfNoP_wf h) ?_
  refine pass_pres (fun _ h => h) (emptyPairStep_head "sup")
    (emptyPairStep_aligned "sup" (by decide)) (fun _ h => wfNoP_wf h) ?_
  refine pass_pres (fun _ h => h) (emptyPairStep_head "sub")
    (emptyPairStep_aligned "sub" (by decide)) (fun _ h => wfNoP_wf h) ?_
  refine pass_pres (fun _ h => h) (emptyPairStep_head "u")
    (emptyPairStep_aligned "u" (by decide)) (fun _ h => wfNoP_wf h) ?_
  refine pass_pres (fun _ h => h) (emptyPairStep_head "i")
    (emptyPairStep_aligned "i" (by decide)) (fun _ h => wfNoP_wf h) ?_
  refine pass_pres (fun _ h => h) (emptyPairStep_head "b")
    (emptyPairStep_aligned "b" (by decide)) (fun _ h => wfNoP_wf h) ?_
  by_cases hup : cfg.useParagraphs = true
  · rw [hup, if_neg (by decide)]
    exact h5
  · have hf : cfg.useParagraphs = false := Bool.eq_false_iff.mpr hup
    rw [hf, if_pos (by decide)]
    exact ItemsOf.mono (fun _ => wfNoP_wf) (pCloseToBr_items (delPOpen_items h5))

/-- Variant 2 success output with `useParagraphs` off: item-decomposed with
no `p` tag, for every parsed body and raw input: the `<p>`-removal pass
erases every opening `p`, the `</p>` pass replaces every closing `p` by
breaks, and the remaining passes and edge cleanups preserve the exclusion. -/
theorem V2_html_items_noP (raw : String) (body : HForest)
    (cfg : ConversionConfig) (h : cfg.useParagraphs = false) :
    ItemsOf TagItem.wfNoP (V2.cleanHtml raw body false cfg).html := by
  have h5 := V2_s5_items cfg
    (!(V2.blockInForest body) && !(trimChars (HForest.textContent body).data == [])) body
  refine edge_items (fun _ => wfNoP_wf) ?_
  refine pass_pres (fun _ => wfNoP_wf) (emptyPairStep_head "p")
    (emptyPairStep_aligned "p" (by decide)) (fun _ h2 => h2) ?_
  refine pass_pres (fun _ => wfNoP_wf) (emptyPairStep_head "sup")
    (emptyPairStep_aligned "sup" (by decide)) (fun _ h2 => h2) ?_
  refine pass_pres (fun _ => wfNoP_wf) (emptyPairStep_head "sub")
    (emptyPairStep_aligned "sub" (by decide)) (fun _ h2 => h2) ?_
  refine pass_pres (fun _ => wfNoP_wf) (emptyPairStep_head "u")
    (emptyPairStep_aligned "u" (by decide)) (fun _ h2 => h2) ?_
  refine pass_pres (fun _ => wfNoP_wf) (emptyPairStep_head "i")
    (emptyPairStep_aligned "i" (by decide)) (fun _ h2 => h2) ?_
  refine pass_pres (fun _ => wfNoP_wf) (emptyPairStep_head "b")
    (emptyPairStep_aligned "b" (by decide)) (fun _ h2 => h2) ?_
  rw [h, if_pos (by decide)]
  exact pCloseToBr_items (delPOpen_items h5)

/-! # Claims -/

/-- C1.  Tag closure: for every parsed body forest, configuration (and
plain-text flag), every element in the rewriter's output fragment of either
variant carries a tag from the allowed vocabulary and no attributes; for
variant 1 this also holds for the final cleaned tree whose serialization is
the success output; and, for every raw input, the success output string of
either variant decomposes into text characters (never a bare `<` or `>`) and
whole allowed bare tags — in particular variant 2's regex cleanup passes
(source lines 487-523) keep the output inside the allowed vocabulary. -/
theorem C1_tag_closure :
    ∀ (cfg : ConversionConfig) (body : HForest) (plain : Bool),
      ((V1.rewritten cfg body).frag).ok = true ∧
      (V1.finalForest cfg body).ok = true ∧
      ((V2.rewritten cfg plain body).frag).ok = true ∧
      (∀ raw : String, ItemsOf TagItem.wf (V1.cleanHtml raw body false cfg).html) ∧
      (∀ raw : String, ItemsOf TagItem.wf (V2.cleanHtml raw body false cfg).html) := by
  intro cfg body plain
  exact ⟨V1.processChildren_ok cfg body {}, V1.finalForest_ok cfg body,
    V2.processChildren_output_ok cfg plain body {} "body" 1,
    fun raw => V1_html_items raw body cfg,
    fun raw => V2_html_items raw body cfg⟩

/-- C2.  Idempotence fails in variant 2: on the parsed form of
`1.<br><br>x` the engine produces `1. <br>x`, but re-running it on the
parsed form of that output produces `1. x` (the bullet-fix regex
`(•|\d+\.)\s*<br>` fires again), so the output is not a fixed point. -/
theorem C2_idempotence_code_bug :
    (V2.cleanHtml "1.<br><br>x"
        (HForest.ofList [tx "1.", el "br" [], el "br" [], tx "x"]) false cfgPP).html
      = "1. <br>x" ∧
    (V2.cleanHtml "1. <br>x"
        (HForest.ofList [tx "1. ", el "br" [], tx "x"]) false cfgPP).html
      = "1. x" ∧
    ("1. x" : String) ≠ "1. <br>x" := by
  refine ⟨by decide, by decide, by decide⟩

/-- C3.  Discard-subtree: in both variants, visiting an element whose tag is
in `IGNORE_TAGS` contributes no output and exactly one increment of the
tags-removed counter, and its children are never visited; on the parsed form
of `<script>alert(1)</script>Safe text` (with the script element present in
the processed forest) both variants output exactly `Safe text` with
`tagsRemoved = 1`. -/
theorem C3_discard_subtree :
    (∀ (cfg : ConversionConfig) (ctx : V1.ConversionContext) (tagName : String)
        (attrs : List (String × String)) (kids : HForest),
        IGNORE_TAGS.contains tagName = true →
        V1.processNode cfg ctx (.elem tagName attrs kids) = ⟨none, 1, 0⟩) ∧
    (∀ (cfg : ConversionConfig) (plain : Bool) (ctx : V2.ConversionContext)
        (tagName : String) (attrs : List (String × String)) (kids : HForest),
        IGNORE_TAGS.contains tagName = true →
        V2.processNode cfg plain ctx (.elem tagName attrs kids) = ⟨none, 1, 0⟩) ∧
    (V1.cleanHtml "<script>alert(1)</script>Safe text"
        (HForest.ofList [el "script" [tx "alert(1)"], tx "Safe text"]) false cfgPP).html
      = "Safe text" ∧
    (V1.cleanHtml "<script>alert(1)</script>Safe text"
        (HForest.ofList [el "script" [tx "alert(1)"], tx "Safe text"]) false cfgPP).stats.tagsRemoved
      = 1 ∧
    (V2.cleanHtml "<script>alert(1)</script>Safe text"
        (HForest.ofList [el "script" [tx "alert(1)"], tx "Safe text"]) false cfgPP).html
      = "Safe text" ∧
    (V2.cleanHtml "<script>alert(1)</script>Safe text"
        (HForest.ofList [el "script" [tx "alert(1)"], tx "Safe text"]) false cfgPP).stats.tagsRemoved
      = 1 := by
  refine ⟨?_, ?_, by decide, by decide, by decide, by decide⟩
  · intro cfg ctx tagName attrs kids h
    simp only [V1.processNode, h, if_pos (show true = true from rfl), if_pos trivial]
  · intro cfg plain ctx tagName attrs kids h
    simp only [V2.processNode, h, if_pos (show true = true from rfl), if_pos trivial]

theorem C3_discard_subtree_witness :
    V1.processNode cfgPP {} (.elem "script" [] (HForest.ofList [tx "alert(1)"]))
      = ⟨none, 1, 0⟩ :=
  C3_discard_subtree.1 cfgPP {} "script" [] (HForest.ofList [tx "alert(1)"]) (by decide)

/-- C4 (amended).  In variant 1, a subtree processed inside a list item never
emits a `p` element — in particular a `p`-mapped element there has its
paragraph wrapper suppressed and its (inline-wrapped) children spliced — and
`<ul><li><p>Item</p></li></ul>` converts to exactly `<ul><li>Item</li></ul>`.
(Variant 2 instead remaps such elements to `br`; see the counterexample.) -/
theorem C4_list_item_override :
    (∀ (cfg : ConversionConfig) (ctx : V1.ConversionContext),
      ctx.insideListListItem = true →
      ∀ n : HNode, noPORes (V1.processNode cfg ctx n).res = true) ∧
    (V1.cleanHtml "<ul><li><p>Item</p></li></ul>"
        (HForest.ofList [el "ul" [el "li" [el "p" [tx "Item"]]]]) false cfgPP).html
      = "<ul><li>Item</li></ul>" := by
  exact ⟨fun cfg ctx h n => V1.processNode_noP cfg n ctx h, by decide⟩

theorem C4_list_item_override_witness :
    noPORes (V1.processNode cfgPP ⟨true⟩ (el "p" [tx "Item"])).res = true :=
  C4_list_item_override.1 cfgPP ⟨true⟩ rfl (el "p" [tx "Item"])

/-- C4 counterexample.  Variant 2 does not splice the children of a
`p`-mapped element inside a list item — it converts the element to a
break-prefixed fragment and flattens the list —, so the example input yields
`<p>• Item</p>`, not `<ul><li>Item</li></ul>`. -/
theorem C4_list_item_override_counterexample :
    (V2.cleanHtml "<ul><li><p>Item</p></li></ul>"
        (HForest.ofList [el "ul" [el "li" [el "p" [tx "Item"]]]]) false cfgPP).html
      = "<p>• Item</p>" ∧
    ("<p>• Item</p>" : String) ≠ "<ul><li>Item</li></ul>" := by
  exact ⟨by decide, by decide⟩

/-- C5.  Mode switch exclusivity: with `useParagraphs` off, variant 1's final
tree (whose serialization is the success output) contains no `p` element at
all; for every parsed body and raw input the success output string of either
variant decomposes into items none of which is a `p` tag — for variant 2 the
`/<p>/gi` and `/<\/p>/gi` passes of lines 507-510 remove every `p` tag and
the remaining passes preserve the exclusion —; and on
`<h1>Title</h1><p>Body</p>` both variants output exactly
`<b>Title</b><br><br>Body`, with no trailing break. -/
theorem C5_mode_switch :
    (∀ (cfg : ConversionConfig) (body : HForest), cfg.useParagraphs = false →
      (V1.finalForest cfg body).noP = true) ∧
    (∀ (cfg : ConversionConfig) (body : HForest) (raw : String),
      cfg.useParagraphs = false →
      ItemsOf TagItem.wfNoP (V1.cleanHtml raw body false cfg).html ∧
      ItemsOf TagItem.wfNoP (V2.cleanHtml raw body false cfg).html) ∧
    (V1.cleanHtml "<h1>Title</h1><p>Body</p>"
        (HForest.ofList [el "h1" [tx "Title"], el "p" [tx "Body"]]) false cfgBR).html
      = "<b>Title</b><br><br>Body" ∧
    (V2.cleanHtml "<h1>Title</h1><p>Body</p>"
        (HForest.ofList [el "h1" [tx "Title"], el "p" [tx "Body"]]) false cfgBR).html
      = "<b>Title</b><br><br>Body" := by
  refine ⟨fun cfg body h => V1.finalForest_noPF cfg body h,
    fun cfg body raw h => ⟨V1_html_items_noP raw body cfg h,
      V2_html_items_noP raw body cfg h⟩,
    by decide, by decide⟩

theorem C5_mode_switch_witness :
    (V1.finalForest cfgBR (HForest.ofList [el "p" [tx "x"]])).noP = true :=
  C5_mode_switch.1 cfgBR (HForest.ofList [el "p" [tx "x"]]) rfl

/-- C6 counterexample.  The classifiers are regex substring searches, not
declaration parsers: `text-decoration:line-through underline` has a
text-decoration value containing `underline` but `isUnderlineStyle` rejects
it (the regex requires `underline` directly after the colon), while
`font-weight:bolder` is not one of the four bold values yet `isBoldStyle`
accepts it (the regex matches the `bold` prefix), so "returns true exactly
when the declaration matches a font-weight/text-decoration property with the
stated value" is false. -/
theorem C6_style_classifier_counterexample :
    specIsUnderline "text-decoration:line-through underline" = true ∧
    isUnderlineStyle "text-decoration:line-through underline" = false ∧
    isBoldStyle "font-weight:bolder" = true ∧
    specIsBold "font-weight:bolder" = false := by
  refine ⟨by decide, by decide, by decide, by decide⟩

/-- C6 (amended).  The classifiers are total Boolean functions returning true
exactly when the respective anchored pattern (`font-weight\s*:\s*` followed by
`bold`/`700`/`800`/`900`, `font-style\s*:\s*italic`,
`text-decoration\s*:\s*underline`, all case-insensitive) matches at some
position of the declaration string — so prefixes such as `bolder` also
classify, and an `underline` not directly after the colon does not. -/
theorem C6_style_classifier :
    ∀ s : String,
      (isBoldStyle s = true ↔ ∃ t, t <:+ s.data ∧ boldAt t = true) ∧
      (isItalicStyle s = true ↔ ∃ t, t <:+ s.data ∧ italicAt t = true) ∧
      (isUnderlineStyle s = true ↔ ∃ t, t <:+ s.data ∧ underlineAt t = true) :=
  fun s =>
    ⟨searchB_iff boldAt s.data, searchB_iff italicAt s.data,
     searchB_iff underlineAt s.data⟩

theorem C6_style_classifier_witness :
    isBoldStyle "font-weight: bold" = true ↔
      ∃ t, t <:+ ("font-weight: bold" : String).data ∧ boldAt t = true :=
  (C6_style_classifier "font-weight: bold").1

/-- C7 (amended).  Emptiness rule: in variant 1, an element whose processed
child fragment is empty and whose mapped tag is not `br` emits nothing, and a
`br`-mapped element is always emitted (as a bare `<br>`, its children
discarded).  In variant 2 the rule holds with two deviations forced by the
source: the target tag is the one *after* the list-item override, and `td`
elements are exempt (an empty `td` still emits its synthesized space — see
the counterexample); a `br`-targeted element is always emitted as a `br`
prepended to its accumulated content.  `<b></b><p>   </p>` converts to the
empty string in both variants. -/
theorem C7_emptiness_rule :
    (∀ (cfg : ConversionConfig) (ctx : V1.ConversionContext) (tagName : String)
        (attrs : List (String × String)) (kids : HForest),
        (V1.processChildren cfg (V1.childCtx ctx tagName) kids).frag = .nil →
        (V1.BASE_TAG_MAP.lookup tagName == some "br") = false →
        (V1.processNode cfg ctx (.elem tagName attrs kids)).res = none) ∧
    (∀ (cfg : ConversionConfig) (ctx : V1.ConversionContext) (tagName : String)
        (attrs : List (String × String)) (kids : HForest),
        V1.BASE_TAG_MAP.lookup tagName = some "br" →
        (V1.processNode cfg ctx (.elem tagName attrs kids)).res
          = some (.node (.elem "br" [] .nil))) ∧
    (∀ (cfg : ConversionConfig) (plain : Bool) (ctx : V2.ConversionContext)
        (tagName : String) (attrs : List (String × String)) (kids : HForest),
        (V2.processChildren cfg plain (V2.childBase ctx tagName) tagName
            (V2.olStart attrs) kids).hasContent = false →
        (V2.effTarget ctx tagName == some "br") = false →
        (tagName == "td") = false →
        (V2.processNode cfg plain ctx (.elem tagName attrs kids)).res = none) ∧
    (∀ (cfg : ConversionConfig) (plain : Bool) (ctx : V2.ConversionContext)
        (tagName : String) (attrs : List (String × String)) (kids : HForest),
        V2.BASE_TAG_MAP.lookup tagName = some "br" →
        ∃ f, (V2.processNode cfg plain ctx (.elem tagName attrs kids)).res
          = some (.frag (.cons (.elem "br" [] .nil) f))) ∧
    (V1.cleanHtml "<b></b><p>   </p>"
        (HForest.ofList [el "b" [], el "p" [tx "   "]]) false cfgPP).html = "" ∧
    (V2.cleanHtml "<b></b><p>   </p>"
        (HForest.ofList [el "b" [], el "p" [tx "   "]]) false cfgPP).html = "" := by
  refine ⟨?_, ?_, ?_, ?_, by decide, by decide⟩
  · intro cfg ctx tagName attrs kids hfrag hbr
    simp only [V1.processNode]
    split
    · rfl
    · rw [if_pos]
      rw [hfrag, hbr]
      decide
  · intro cfg ctx tagName attrs kids h
    have hig := V1.brMapped_not_ignored tagName h
    simp only [V1.processNode, hig, if_neg (show ¬(false = true) by decide)]
    rw [if_neg]
    · simp only [V1.applyBlock, h]
      rw [if_neg (show ¬((some "br" == some "p") = true) by decide),
        if_pos (show (some "br" == some "br") = true by decide)]
    · rw [h]
      simp
  · intro cfg plain ctx tagName attrs kids hcont hbr htd
    simp only [V2.processNode]
    split
    · rfl
    · rw [if_pos]
      rw [hcont, hbr, htd]
      decide
  · intro cfg plain ctx tagName attrs kids h
    have hf := V2.brMapped_facts tagName h
    have heff : V2.effTarget ctx tagName = some "br" := by
      simp only [V2.effTarget, h, hf.2.1, hf.2.2]
      rw [if_neg]
      simp
    simp only [V2.processNode, hf.1, if_neg (show ¬(false = true) by decide), heff]
    rw [if_neg]
    · simp only [V2.applyBlock]
      rw [if_neg (show ¬((some "br" == some "p") = true) by decide),
        if_pos (show (some "br" == some "br") = true by decide)]
      exact ⟨_, rfl⟩
    · simp

theorem C7_emptiness_rule_witness :
    (V1.processNode cfgPP {} (el "b" [])).res = none ∧
    (V1.processNode cfgPP {} (el "hr" [])).res
      = some (.node (.elem "br" [] .nil)) ∧
    (V2.processNode cfgPP false {} (el "i" [])).res = none ∧
    (∃ f, (V2.processNode cfgPP false {} (el "hr" [])).res
      = some (.frag (.cons (.elem "br" [] .nil) f))) :=
  ⟨C7_emptiness_rule.1 cfgPP {} "b" [] (HForest.ofList []) (by rfl) (by decide),
   C7_emptiness_rule.2.1 cfgPP {} "hr" [] (HForest.ofList []) (by decide),
   C7_emptiness_rule.2.2.1 cfgPP false {} "i" [] (HForest.ofList [])
     (by decide) (by decide) (by decide),
   C7_emptiness_rule.2.2.2.1 cfgPP false {} "hr" [] (HForest.ofList []) (by decide)⟩

/-- C7 counterexample.  In variant 2, a `td` element whose collected child
fragment is empty and whose mapped tag (`span`) is not `br` still emits
output — its synthesized space prefix —, and an empty `p` element inside a
list item (mapped tag `p`, not `br`) emits a break, so "the rewriter emits
nothing for that element" is false as stated. -/
theorem C7_emptiness_rule_counterexample :
    V2.BASE_TAG_MAP.lookup "td" = some "span" ∧
    (V2.processNode cfgPP false {} (el "td" [])).res
      = some (.frag (.cons (.text " ") .nil)) ∧
    V2.BASE_TAG_MAP.lookup "p" = some "p" ∧
    (V2.processNode cfgPP false ⟨true, none, none⟩ (el "p" [])).res
      = some (.frag (.cons (.elem "br" [] .nil) .nil)) := by
  refine ⟨by decide, by rfl, by decide, by rfl⟩

/-- C8.  Error containment: both variants are total functions into the result
record; the failure variant is produced exactly when the parser reported an
error (the only throwing statement inside the `try` is the malformed-structure
check, and the `catch` converts it), and every failure result carries
all-zero stats. -/
theorem C8_error_containment :
    ∀ (raw : String) (body : HForest) (pe : Bool) (cfg : ConversionConfig),
      ((V1.cleanHtml raw body pe cfg).error.isSome = true ↔ pe = true) ∧
      ((V2.cleanHtml raw body pe cfg).error.isSome = true ↔ pe = true) ∧
      ((V1.cleanHtml raw body pe cfg).error.isSome = true →
        (V1.cleanHtml raw body pe cfg).stats = ⟨0, 0, 0, 0⟩) ∧
      ((V2.cleanHtml raw body pe cfg).error.isSome = true →
        (V2.cleanHtml raw body pe cfg).stats = ⟨0, 0, 0, 0⟩) := by
  intro raw body pe cfg
  cases pe <;> simp [V1.cleanHtml, V2.cleanHtml]

theorem C8_error_containment_witness :
    (V1.cleanHtml "x" (HForest.ofList [tx "x"]) true cfgPP).stats = ⟨0, 0, 0, 0⟩ :=
  (C8_error_containment "x" (HForest.ofList [tx "x"]) true cfgPP).2.2.1 (by decide)

/-- C9.  Discarded-attribute accounting is dead in variant 2: its
`attributesRemoved` counter is never incremented, so every result —
success or failure, styled input or not — reports 0 discarded attributes,
while variant 1 (and the spec) increments it once per element with a
non-empty style attribute (second conjunct: the same styled input yields 1
under variant 1). -/
theorem C9_attribute_accounting :
    (∀ (raw : String) (body : HForest) (pe : Bool) (cfg : ConversionConfig),
      (V2.cleanHtml raw body pe cfg).stats.attributesRemoved = 0) ∧
    (V1.cleanHtml "<p style=\"font-weight:bold\">x</p>"
        (HForest.ofList [elA "p" [("style", "font-weight:bold")] [tx "x"]])
        false cfgPP).stats.attributesRemoved = 1 := by
  constructor
  · intro raw body pe cfg
    cases pe
    · simp only [V2.cleanHtml, if_neg (show ¬(false = true) by decide)]
      exact V2.processChildren_attrs cfg _ body {} "body" 1
    · simp [V2.cleanHtml]
  · decide

/-- C10.  List markers in variant 2: every `li` element's output is a break
followed by a synthesized text marker and then the processed children (the
marker sits inside the inline wrappers when the `li` carries styles; the
first conjunct states the unstyled case).  The marker is `"N. "` exactly when
the recorded list kind is `ol` and an index `N` was recorded, and `"• "` when
the kind is `ul`, no kind was recorded, or no index was recorded.  An `ol`
assigns indices to its `li` element children starting from its parsed
`start` attribute (1 when absent or unparsable) and incrementing by one per
successive `li` child in document order. -/
theorem C10_list_markers :
    (∀ (cfg : ConversionConfig) (plain : Bool) (ctx : V2.ConversionContext)
        (attrs : List (String × String)) (kids : HForest),
        attrs.lookup "style" = none →
        ∃ f, (V2.processNode cfg plain ctx (.elem "li" attrs kids)).res =
          some (.frag (.cons (.elem "br" [] .nil)
            (.cons (.text (V2.liMarker ctx)) f)))) ∧
    (∀ ctx : V2.ConversionContext,
      (∀ n : Int, ctx.parentListType = some "ol" → ctx.listIndex = some n →
        V2.liMarker ctx = toString n ++ ". ") ∧
      (ctx.listIndex = none → V2.liMarker ctx = "• ") ∧
      (ctx.parentListType = some "ul" → V2.liMarker ctx = "• ") ∧
      (ctx.parentListType = none → V2.liMarker ctx = "• ")) ∧
    (∀ (cfg : ConversionConfig) (plain : Bool) (base : V2.ConversionContext)
        (start : Int) (kids : HForest),
        V2.processChildren cfg plain base "ol" start kids =
          V2.claimChildren cfg plain base start 0 kids) ∧
    (V2.olStart [("start", "3")] = 3 ∧ V2.olStart [] = 1 ∧
      V2.olStart [("start", "foo")] = 1 ∧ V2.olStart [("start", " -2x")] = -2) ∧
    (V2.cleanHtml "<ol start=3><li>A</li><li>B</li></ol>"
        (HForest.ofList [elA "ol" [("start", "3")] [el "li" [tx "A"], el "li" [tx "B"]]])
        false cfgPP).html = "<p>3. A<br>4. B</p>" ∧
    (V2.cleanHtml "<ul><li>A</li><li>B</li></ul>"
        (HForest.ofList [el "ul" [el "li" [tx "A"], el "li" [tx "B"]]])
        false cfgPP).html = "<p>• A<br>• B</p>" := by
  refine ⟨?_, ?_, ?_, ⟨by decide, by decide, by decide, by decide⟩, by decide, by decide⟩
  · intro cfg plain ctx attrs kids hst
    have hig : IGNORE_TAGS.contains "li" = false := by decide
    have heff : V2.effTarget ctx "li" = some "br" := by
      simp only [V2.effTarget]
      rw [show (V2.BASE_TAG_MAP.lookup "li" == some "p" || isHeaderTag "li" ||
          ("li" == "div")) = false from by decide, Bool.and_false,
        if_neg (show ¬(false = true) by decide)]
      decide
    have hmk : V2.visualMarker ctx "li" = V2.liMarker ctx := by
      simp only [V2.visualMarker]
      rw [if_pos (show ("li" == "li") = true from by decide)]
    have hw : ∀ r : PRes, applyWraps (some "br") (isBoldStyle "") (isItalicStyle "")
        (isUnderlineStyle "") (isHeaderTag "li") "li" r = r := by
      intro r
      simp only [applyWraps, wrapIf]
      rw [if_neg (by decide), if_neg (by decide), if_neg (by decide),
        if_neg (by decide), if_neg (by decide)]
    simp only [V2.processNode, hig, if_neg (show ¬(false = true) by decide), hst,
      Option.getD_none, heff, hmk]
    rw [if_neg (show ¬((V2.liMarker ctx == "") = true) from by
      rw [V2.liMarker_ne_empty ctx]; decide)]
    rw [if_neg]
    · rw [hw]
      simp only [V2.applyBlock]
      rw [if_neg (show ¬((some "br" == some "p") = true) by decide),
        if_pos (show (some "br" == some "br") = true by decide)]
      exact ⟨_, rfl⟩
    · simp
  · intro ctx
    refine ⟨?_, ?_, ?_, ?_⟩
    · intro n hp hi
      unfold V2.liMarker
      rw [hp, hi]
      rfl
    · intro hi
      unfold V2.liMarker
      rw [hi]
      try split
      all_goals first
        | rfl
        | (rename_i n h1 h2; exact Option.noConfusion h2)
    · intro hp
      unfold V2.liMarker
      rw [hp]
      try split
      all_goals first
        | rfl
        | (rename_i n h1 h2; exact absurd h1 (by decide))
    · intro hp
      unfold V2.liMarker
      rw [hp]
  · intro cfg plain base start kids
    have h := V2.olIndexing cfg plain base start kids 0
    rw [show start + ((0 : Nat) : Int) = start from by simp] at h
    exact h

theorem C10_list_markers_witness :
    ∃ f, (V2.processNode cfgPP false ⟨false, some "ol", some 3⟩
        (el "li" [tx "A"])).res =
      some (.frag (.cons (.elem "br" [] .nil)
        (.cons (.text (V2.liMarker ⟨false, some "ol", some 3⟩)) f))) :=
  C10_list_markers.1 cfgPP false ⟨false, some "ol", some 3⟩ []
    (HForest.ofList [tx "A"]) rfl
